import Mathlib

/-!
Verification of the suggestion-extraction core of the soyio-docs-bot action.

The embedding covers, from `src/pinecone-query.ts` (the file also holding
`llm-suggester.ts` content):
  * `escapeNewlinesInStrings` — the string-safe newline escaper;
  * the parse / sanitize / enrich pipeline inside `generateSuggestions`
    (fence stripping, backtick purge, JSON parsing with brace-extraction
    fallback, canonical empty fallbacks, and line-number enrichment);
  * the result formatting of `queryPinecone`;
and, from `index.ts` / `pr-comment.ts`, the run control flow and the
comment-upsert decision.

JavaScript builtins (`JSON.parse`, `String.prototype.trim`, the fence
regular expression, `indexOf` / `lastIndexOf` / `slice`) are modelled on
`List Char`.  JS strings are modelled as sequences of unicode characters
and JS numbers in JSON as exact decimals (mantissa and power of ten);
the claims never exercise float rounding.
-/

set_option maxHeartbeats 1000000

namespace DocsBot

/-! ## JSON values

`Json.num m e` denotes the decimal `m * 10 ^ e` (mantissa and decimal
exponent exactly as read from the token; no float rounding). -/

inductive Json where
  | null : Json
  | bool (b : Bool) : Json
  | num (m : Int) (e : Int) : Json
  | str (s : String) : Json
  | arr (xs : List Json) : Json
  | obj (fields : List (String × Json)) : Json

/-! ## The string-safe newline escaper (`escapeNewlinesInStrings`)

Direct transcription of the `for` loop in `src/pinecone-query.ts:285`:
state is the pair of booleans `inString` / `escaped`. -/

def escGo : List Char → Bool → Bool → List Char
  | [], _, _ => []
  | c :: cs, inString, escaped =>
    if !inString then
      if c = '"' then c :: escGo cs true escaped
      else c :: escGo cs false escaped
    else if escaped then c :: escGo cs inString false
    else if c = '\\' then c :: escGo cs inString true
    else if c = '"' then c :: escGo cs false escaped
    else if c = '\n' then '\\' :: 'n' :: escGo cs inString escaped
    else if c = '\r' then escGo cs inString escaped
    else c :: escGo cs inString escaped

def escapeNewlinesInStrings (s : String) : String :=
  ⟨escGo s.data false false⟩

/-- Modelled from the spec: §4.1/§9 describe the escaper as an explicit
three-state machine (`Outside`, `InString`, `InStringEscaped`); this is the
spec-side description used by the refinement claim C5. -/
inductive EscState where
  | outside : EscState
  | inString : EscState
  | inStringEsc : EscState
deriving DecidableEq, Repr

/-- Modelled from the spec: per-character action of the escaper as the spec
words it — newline inside a string becomes backslash-n, carriage return
inside a string is dropped, a backslash escapes the following character,
an unescaped quote toggles the in-string state, everything outside a
string passes through unchanged. -/
def escSpecStep : EscState → Char → EscState × List Char
  | .outside, c => if c = '"' then (.inString, [c]) else (.outside, [c])
  | .inString, c =>
    if c = '\\' then (.inStringEsc, [c])
    else if c = '"' then (.outside, [c])
    else if c = '\n' then (.inString, ['\\', 'n'])
    else if c = '\r' then (.inString, [])
    else (.inString, [c])
  | .inStringEsc, c => (.inString, [c])

def escSpecRun : EscState → List Char → List Char
  | _, [] => []
  | st, c :: cs =>
    let step := escSpecStep st c
    step.2 ++ escSpecRun step.1 cs

theorem escGo_eq_escSpecRun (cs : List Char) :
    escGo cs false false = escSpecRun .outside cs ∧
    escGo cs true false = escSpecRun .inString cs ∧
    escGo cs true true = escSpecRun .inStringEsc cs := by
  induction cs with
  | nil => exact ⟨rfl, rfl, rfl⟩
  | cons c cs ih =>
    obtain ⟨h1, h2, h3⟩ := ih
    refine ⟨?_, ?_, ?_⟩
    · by_cases hq : c = '"' <;>
        simp [escGo, escSpecRun, escSpecStep, hq, h1, h2]
    · by_cases hb : c = '\\'
      · simp [escGo, escSpecRun, escSpecStep, hb, h3]
      · by_cases hq : c = '"'
        · simp [escGo, escSpecRun, escSpecStep, hq, hb, h1]
        · by_cases hn : c = '\n'
          · simp [escGo, escSpecRun, escSpecStep, hn, hb, hq, h2]
          · by_cases hr : c = '\r' <;>
              simp [escGo, escSpecRun, escSpecStep, hb, hq, hn, hr, h2]
    · simp [escGo, escSpecRun, escSpecStep, h2]

/-! ## A model of `JSON.parse`

Fuel-indexed recursive-descent reading of the JSON grammar enforced by
`JSON.parse`: strict escape set, no control characters inside strings,
no leading zeros, no trailing commas, last duplicate object key wins on
lookup (lookup is defined below with last-wins semantics). -/

def jsonWs (c : Char) : Bool :=
  c = ' ' || c = '\t' || c = '\n' || c = '\r'

def skipWs (cs : List Char) : List Char :=
  cs.dropWhile jsonWs

def hex? (c : Char) : Option Nat :=
  if '0' ≤ c ∧ c ≤ '9' then some (c.toNat - '0'.toNat)
  else if 'a' ≤ c ∧ c ≤ 'f' then some (c.toNat - 'a'.toNat + 10)
  else if 'A' ≤ c ∧ c ≤ 'F' then some (c.toNat - 'A'.toNat + 10)
  else none

def hex4 (a b c d : Char) : Option Nat := do
  let x ← hex? a
  let y ← hex? b
  let z ← hex? c
  let w ← hex? d
  pure (((x * 16 + y) * 16 + z) * 16 + w)

/-- Reads the body of a string literal after the opening quote, returning
the decoded content and the remainder after the closing quote. -/
def parseStrBody : Nat → List Char → List Char → Option (List Char × List Char)
  | 0, _, _ => none
  | _ + 1, [], _ => none
  | f + 1, c :: cs, acc =>
    if c = '"' then some (acc.reverse, cs)
    else if c = '\\' then
      match cs with
      | [] => none
      | e :: cs' =>
        if e = '"' then parseStrBody f cs' ('"' :: acc)
        else if e = '\\' then parseStrBody f cs' ('\\' :: acc)
        else if e = '/' then parseStrBody f cs' ('/' :: acc)
        else if e = 'b' then parseStrBody f cs' ('\x08' :: acc)
        else if e = 'f' then parseStrBody f cs' ('\x0c' :: acc)
        else if e = 'n' then parseStrBody f cs' ('\n' :: acc)
        else if e = 'r' then parseStrBody f cs' ('\r' :: acc)
        else if e = 't' then parseStrBody f cs' ('\t' :: acc)
        else if e = 'u' then
          match cs' with
          | h1 :: h2 :: h3 :: h4 :: cs'' =>
            match hex4 h1 h2 h3 h4 with
            | some n => parseStrBody f cs'' (Char.ofNat n :: acc)
            | none => none
          | _ => none
        else none
    else if c.toNat < 0x20 then none
    else parseStrBody f cs (c :: acc)

def numChar (c : Char) : Bool :=
  c.isDigit || c = '-' || c = '+' || c = '.' || c = 'e' || c = 'E'

def digitsToNat (ds : List Char) : Nat :=
  ds.foldl (fun acc c => acc * 10 + (c.toNat - '0'.toNat)) 0

/-- Validates a maximal numeric token and computes its exact decimal value,
rejecting exactly the tokens `JSON.parse` rejects (leading zeros, empty
integer part, empty fraction or exponent, stray characters). -/
def numFromToken (tok : List Char) : Option Json :=
  let sign : Int := if tok.head? = some '-' then -1 else 1
  let t1 := if tok.head? = some '-' then tok.drop 1 else tok
  let ip := t1.takeWhile Char.isDigit
  let t2 := t1.dropWhile Char.isDigit
  if ip = [] then none
  else if ip.head? = some '0' ∧ ip.length > 1 then none
  else
    let withFrac : List Char → Option (List Char × List Char) := fun t =>
      match t with
      | '.' :: t3 =>
        let fp := t3.takeWhile Char.isDigit
        if fp = [] then none else some (fp, t3.dropWhile Char.isDigit)
      | _ => some ([], t)
    match withFrac t2 with
    | none => none
    | some (fp, t4) =>
      let withExp : List Char → Option Int := fun t =>
        match t with
        | [] => some 0
        | e :: t5 =>
          if e = 'e' ∨ e = 'E' then
            let (esign, t6) : Int × List Char :=
              match t5 with
              | '+' :: r => (1, r)
              | '-' :: r => (-1, r)
              | _ => (1, t5)
            let ed := t6.takeWhile Char.isDigit
            if ed = [] ∨ t6.dropWhile Char.isDigit ≠ [] then none
            else some (esign * Int.ofNat (digitsToNat ed))
          else none
      match withExp t4 with
      | none => none
      | some ex =>
        some (.num (sign * Int.ofNat (digitsToNat (ip ++ fp)))
                   (ex - Int.ofNat fp.length))

def parseNum (cs : List Char) : Option (Json × List Char) :=
  match numFromToken (cs.takeWhile numChar) with
  | some j => some (j, cs.dropWhile numChar)
  | none => none

mutual

def parseValue : Nat → List Char → Option (Json × List Char)
  | 0, _ => none
  | f + 1, cs =>
    match cs with
    | 'n' :: 'u' :: 'l' :: 'l' :: r => some (.null, r)
    | 't' :: 'r' :: 'u' :: 'e' :: r => some (.bool true, r)
    | 'f' :: 'a' :: 'l' :: 's' :: 'e' :: r => some (.bool false, r)
    | '"' :: r =>
      match parseStrBody f r [] with
      | some (content, rest) => some (.str ⟨content⟩, rest)
      | none => none
    | '[' :: r =>
      match skipWs r with
      | ']' :: r2 => some (.arr [], r2)
      | cs2 =>
        match parseArrLoop f cs2 with
        | some (vs, rest) => some (.arr vs, rest)
        | none => none
    | '{' :: r =>
      match skipWs r with
      | '}' :: r2 => some (.obj [], r2)
      | cs2 =>
        match parseObjLoop f cs2 with
        | some (fs, rest) => some (.obj fs, rest)
        | none => none
    | _ => parseNum cs

def parseArrLoop : Nat → List Char → Option (List Json × List Char)
  | 0, _ => none
  | f + 1, cs =>
    match parseValue f cs with
    | none => none
    | some (v, r1) =>
      match skipWs r1 with
      | ',' :: r2 =>
        match parseArrLoop f (skipWs r2) with
        | some (vs, rest) => some (v :: vs, rest)
        | none => none
      | ']' :: r2 => some ([v], r2)
      | _ => none

def parseObjLoop : Nat → List Char → Option (List (String × Json) × List Char)
  | 0, _ => none
  | f + 1, cs =>
    match cs with
    | '"' :: r =>
      match parseStrBody f r [] with
      | none => none
      | some (key, r2) =>
        match skipWs r2 with
        | ':' :: r3 =>
          match parseValue f (skipWs r3) with
          | none => none
          | some (v, r4) =>
            match skipWs r4 with
            | ',' :: r5 =>
              match parseObjLoop f (skipWs r5) with
              | some (fs, rest) => some ((⟨key⟩, v) :: fs, rest)
              | none => none
            | '}' :: r5 => some ([(⟨key⟩, v)], r5)
            | _ => none
        | _ => none
    | _ => none

end

/-- Model of `JSON.parse` on character lists: parse one value surrounded by
optional whitespace; anything else is a parse error (`none`). -/
def jsonParseFullL (cs : List Char) : Option Json :=
  match parseValue (2 * cs.length + 8) (skipWs cs) with
  | some (j, rest) => if rest.all jsonWs then some j else none
  | none => none

def jsonParseFull (s : String) : Option Json :=
  jsonParseFullL s.data

/-! ## JS string utilities used by the pipeline

`jsWs` is the whitespace class of `String.prototype.trim` and of the
regex `\s` (ASCII part; the exotic unicode spaces never occur here). -/

def jsWs (c : Char) : Bool :=
  c = ' ' || c = '\t' || c = '\n' || c = '\r' || c = '\x0b' || c = '\x0c'

def dropTrailingWs (cs : List Char) : List Char :=
  (cs.reverse.dropWhile jsWs).reverse

def jsTrimL (cs : List Char) : List Char :=
  dropTrailingWs (cs.dropWhile jsWs)

/-- First occurrence of `pat` in `cs`: the characters before it and the
characters after it (`String.prototype.indexOf`-style search). -/
def splitFirst : List Char → List Char → Option (List Char × List Char)
  | [], pat => if pat.isPrefixOf ([] : List Char) then some ([], []) else none
  | c :: r, pat =>
    if pat.isPrefixOf (c :: r) then some ([], (c :: r).drop pat.length)
    else
      match splitFirst r pat with
      | some (a, b) => some (c :: a, b)
      | none => none

/-- The triple-backtick token of the fence regex. -/
def tbt : List Char := ['`', '`', '`']

/-- The optional case-insensitive `json` tag after the opening fence
(the `(?:json)?` group of the regex, under the `i` flag). -/
def stripJsonTag (cs : List Char) : List Char :=
  match cs with
  | c1 :: c2 :: c3 :: c4 :: r =>
    if c1.toLower = 'j' ∧ c2.toLower = 's' ∧ c3.toLower = 'o' ∧ c4.toLower = 'n'
    then r else cs
  | _ => cs

/-- Model of `rawText.match(/` three backticks `(?:json)?\s*([\s\S]*?)` three
backticks `/i)`: content of the first fenced block, if any. -/
def extractFence (cs : List Char) : Option (List Char) :=
  match splitFirst cs tbt with
  | none => none
  | some (_, r1) =>
    let r3 := (stripJsonTag r1).dropWhile jsWs
    match splitFirst r3 tbt with
    | none => none
    | some (content, _) => some content

/-- `String.prototype.indexOf` for a single character. -/
def idxOfChar (c : Char) : List Char → Option Nat
  | [] => none
  | x :: r => if x = c then some 0 else (idxOfChar c r).map (· + 1)

/-- Model of `.replace(/` three backticks `/g, '')`. -/
def replaceTriple : List Char → List Char
  | '`' :: '`' :: '`' :: r => replaceTriple r
  | c :: r => c :: replaceTriple r
  | [] => []

/-! ## The context records (`QueryResult`) and the typed suggestion set -/

structure QueryResult where
  file : String
  chunkIndex : Int
  startLine : Int
  endLine : Int
  text : String
  score : ℚ
deriving DecidableEq, Repr

inductive ImpactLevel where
  | none | low | medium | high
deriving DecidableEq, Repr

inductive SuggestionType where
  | update | add | remove
deriving DecidableEq, Repr

inductive Severity where
  | info | warning | critical
deriving DecidableEq, Repr

structure Suggestion where
  target_file : String
  target_section : String
  type : SuggestionType
  rationale : String
  suggested_text : String
  severity : Severity
  start_line : Option Int
  end_line : Option Int
deriving DecidableEq, Repr

structure LLMResponse where
  impact_level : ImpactLevel
  summary : String
  comment_intro : Option String
  suggestions : List Suggestion
deriving DecidableEq, Repr

/-! ## Decoding a `Json` value into a typed `LLMResponse`

`getField` models JS property lookup on an object built by `JSON.parse`:
with duplicate keys the last value wins. -/

def getField : List (String × Json) → String → Option Json
  | [], _ => none
  | (k, v) :: rest, key =>
    match getField rest key with
    | some r => some r
    | none => if k = key then some v else none

def decodeStrJ : Json → Option String
  | .str s => some s
  | _ => none

def decodeIntJ : Json → Option Int
  | .num m e => if 0 ≤ e then some (m * (10 : Int) ^ e.toNat) else none
  | _ => none

def decodeImpact : Json → Option ImpactLevel
  | .str "none" => some .none
  | .str "low" => some .low
  | .str "medium" => some .medium
  | .str "high" => some .high
  | _ => none

def decodeSuggType : Json → Option SuggestionType
  | .str "update" => some .update
  | .str "add" => some .add
  | .str "remove" => some .remove
  | _ => none

def decodeSeverity : Json → Option Severity
  | .str "info" => some .info
  | .str "warning" => some .warning
  | .str "critical" => some .critical
  | _ => none

def decodeOptField (fs : List (String × Json)) (key : String)
    (dec : Json → Option α) : Option (Option α) :=
  match getField fs key with
  | Option.none => some Option.none
  | some v => (dec v).map some

def decodeSugg : Json → Option Suggestion
  | .obj fs =>
    match (getField fs "target_file").bind decodeStrJ,
          (getField fs "target_section").bind decodeStrJ,
          (getField fs "type").bind decodeSuggType,
          (getField fs "rationale").bind decodeStrJ,
          (getField fs "suggested_text").bind decodeStrJ,
          (getField fs "severity").bind decodeSeverity,
          decodeOptField fs "start_line" decodeIntJ,
          decodeOptField fs "end_line" decodeIntJ with
    | some tf, some ts, some ty, some ra, some st, some se, some sl, some el =>
      some ⟨tf, ts, ty, ra, st, se, sl, el⟩
    | _, _, _, _, _, _, _, _ => none
  | _ => none

def decodeLLM : Json → Option LLMResponse
  | .obj fs =>
    match (getField fs "impact_level").bind decodeImpact,
          (getField fs "summary").bind decodeStrJ,
          decodeOptField fs "comment_intro" decodeStrJ,
          getField fs "suggestions" with
    | some il, some su, some ci, some (.arr elems) =>
      match elems.mapM decodeSugg with
      | some ss => some ⟨il, su, ci, ss⟩
      | Option.none => none
    | _, _, _, _ => none
  | _ => none

/-! ## The recovery ladder inside `generateSuggestions` -/

/-- The canonical empty result of the inner catch (both parse attempts
failed): `src/pinecone-query.ts:254`. -/
def canonicalA : Json :=
  .obj [("impact_level", .str "none"),
        ("summary", .str "Unable to generate suggestions due to parsing error."),
        ("suggestions", .arr [])]

/-- The canonical empty result of the no-braces branch:
`src/pinecone-query.ts:262`. -/
def canonicalB : Json :=
  .obj [("impact_level", .str "none"),
        ("summary", .str "Unable to generate suggestions - no valid response."),
        ("suggestions", .arr [])]

/-- `jsonMatch ? jsonMatch[1] : rawText` followed by
`.replace(/` three backticks `/g, '').trim()` and the escaper. -/
def sanitizedOf (raw : List Char) : List Char :=
  let jsonString := (extractFence raw).getD raw
  escGo (jsTrimL (replaceTriple jsonString)) false false

/-- The parse ladder of `generateSuggestions` (lines 240–268).
`.inl j` is a successful `JSON.parse` (enrichment runs next);
`.inr j` is one of the early `return` statements with a canonical empty
result (enrichment is skipped). -/
def ladderParse (raw : List Char) : Json ⊕ Json :=
  match jsonParseFullL (jsTrimL (sanitizedOf raw)) with
  | some j => .inl j
  | none =>
    match idxOfChar '{' (sanitizedOf raw),
          (idxOfChar '}' (sanitizedOf raw).reverse).map
            (fun i => (sanitizedOf raw).length - 1 - i) with
    | some startIdx, some endIdx =>
      match jsonParseFullL (((sanitizedOf raw).drop startIdx).take (endIdx + 1 - startIdx)) with
      | some j => .inl j
      | none => .inr canonicalA
    | _, _ => .inr canonicalB

/-- Output of the Recovery Parser component (§4.2): the parse ladder's
value before enrichment. -/
def recoveryParse (raw : String) : Json :=
  match ladderParse raw.data with
  | .inl j => j
  | .inr j => j

/-! ## Enrichment (lines 270–278)

`parsed.suggestions.map(s => ({...s, start_line: matchingDoc?.startLine,
end_line: matchingDoc?.endLine}))`.  A key assigned `undefined` in JS is
indistinguishable from an absent key for reading and for re-encoding, so
the model omits the keys instead.  Spreading a non-object contributes no
named properties (string index keys are elided; the claims only exercise
object elements). -/

def enrichSuggestionJ (docs : List QueryResult) (e : Json) : Json :=
  let fields := match e with | .obj fs => fs | _ => []
  let doc : Option QueryResult :=
    match getField fields "target_file" with
    | some (.str t) => docs.find? (fun d => d.file = t)
    | _ => none
  let base := fields.filter (fun p => p.1 ≠ "start_line" ∧ p.1 ≠ "end_line")
  match doc with
  | some d =>
    .obj (base ++ [("start_line", .num d.startLine 0), ("end_line", .num d.endLine 0)])
  | none => .obj base

/-- `parsed.suggestions = parsed.suggestions.map(...)`: property write on
the parsed object.  `none` models the `TypeError` thrown when
`parsed.suggestions` has no `.map` (value absent or not an array, or
`parsed` not an object). -/
def enrichJson (docs : List QueryResult) : Json → Option Json
  | .obj fs =>
    match getField fs "suggestions" with
    | some (.arr elems) =>
      some (.obj (fs.map (fun p =>
        if p.1 = "suggestions"
        then (p.1, Json.arr (elems.map (enrichSuggestionJ docs)))
        else p)))
    | _ => none
  | _ => none

/-- The pure core of `generateSuggestions` from the raw model text on:
`some` is the returned value, `none` an exception escaping the function. -/
def generateSuggestionsCore (raw : String) (docs : List QueryResult) : Option Json :=
  match ladderParse raw.data with
  | .inl j => enrichJson docs j
  | .inr j => some j

/-- Typed mirror of the enrichment of one suggestion, used to state what
enrichment does to a conformant suggestion set. -/
def enrichTypedSugg (docs : List QueryResult) (s : Suggestion) : Suggestion :=
  { s with
    start_line := (docs.find? (fun d => d.file = s.target_file)).map (·.startLine)
    end_line := (docs.find? (fun d => d.file = s.target_file)).map (·.endLine) }

/-! ## `queryPinecone` result formatting (lines 47–60) -/

structure RawMetadata where
  file : Option String
  chunkIndex : Option Int
  startLine : Option Int
  endLine : Option Int
  text : Option String
deriving DecidableEq, Repr

structure RawMatch where
  metadata : Option RawMetadata
  score : Option ℚ
deriving DecidableEq, Repr

/-- JS `x || d` for a possibly-absent string: the empty string is falsy. -/
def jsOrStr (o : Option String) (d : String) : String :=
  match o with
  | some s => if s = "" then d else s
  | Option.none => d

/-- The `matches.map(...)` defaulting step of `queryPinecone`
(for the numeric fields `x || 0` coincides with defaulting on absence). -/
def queryPineconeFormat (ms : List RawMatch) : List QueryResult :=
  ms.map fun m =>
    { file := jsOrStr (m.metadata.bind (·.file)) "unknown"
      chunkIndex := (m.metadata.bind (·.chunkIndex)).getD 0
      startLine := (m.metadata.bind (·.startLine)).getD 0
      endLine := (m.metadata.bind (·.endLine)).getD 0
      text := jsOrStr (m.metadata.bind (·.text)) ""
      score := m.score.getD 0 }

/-! ## The comment upsert (`postComment`) and the run control flow -/

structure ExistingComment where
  id : Int
  body : String
deriving DecidableEq, Repr

inductive WriteCall where
  | update (id : Int) (body : String)
  | create (body : String)
deriving DecidableEq, Repr

def containsSub (cs pat : List Char) : Bool :=
  (splitFirst cs pat).isSome

/-- Modelled from the spec: the implementation of `postComment` in
`src/pr-comment.ts` is not present under `src/` (only its unit tests and
its callers are).  Per §4.4 and the tests: list the existing comments,
find the first whose body contains the bot marker, then issue exactly one
write — an update of that comment if found, otherwise a create.  The
returned list is the sequence of write calls issued. -/
def postCommentWrites (marker : String) (comments : List ExistingComment)
    (body : String) : List WriteCall :=
  match comments.find? (fun c => containsSub c.body.data marker.data) with
  | some c => [.update c.id body]
  | Option.none => [.create body]

/-- The outcomes of the external calls `run` awaits, in order.  An
`Except.error` is the call throwing. -/
structure RunEnv where
  prGet : Except String String
  listFiles : Except String (List String)
  searchQueryGen : Except String String
  pinecone : Except String (List QueryResult)
  llmRawText : Except String String
  comments : List ExistingComment
  dryRun : Bool

/-- Control-flow model of `run` (`src/index.ts:96`): the list of comment
write calls the run issues.  The try/catch around the whole body turns any
escaped exception into `core.setFailed` with no further calls; the inner
try/catch around `buildSearchQuery` falls back to the raw PR text, so a
`searchQueryGen` failure does not abort.  The LLM step throws either from
the transport (`llmRawText` errors) or out of the parse-enrich pipeline
(`generateSuggestionsCore` returns `none`). -/
def runModel (env : RunEnv) (marker commentBody : String) : List WriteCall :=
  match env.prGet with
  | .error _ => []
  | .ok _ =>
    match env.listFiles with
    | .error _ => []
    | .ok _ =>
      let _queryText := match env.searchQueryGen with
        | .ok q => q
        | .error _ => "fallback to raw PR text"
      match env.pinecone with
      | .error _ => []
      | .ok docs =>
        match env.llmRawText with
        | .error _ => []
        | .ok raw =>
          match generateSuggestionsCore raw docs with
          | Option.none => []
          | some _ =>
            if env.dryRun then []
            else postCommentWrites marker env.comments commentBody

/-! ## Transparency of valid JSON for the escaper

`EscId a` says the escaper, started outside a string, copies the chunk
`a` verbatim and is again outside a string (with no pending escape) at
its end.  `StrBody` describes the character sequences that form the body
of a JSON string literal as accepted by `parseStrBody`: ordinary
characters (no quote, backslash, or raw control character) and
backslash-escape pairs. -/

def EscId (a : List Char) : Prop :=
  ∀ b, escGo (a ++ b) false false = a ++ escGo b false false

inductive StrBody : List Char → Prop where
  | nil : StrBody []
  | ord (c : Char) (rest : List Char) :
      c ≠ '"' → c ≠ '\\' → c ≠ '\n' → c ≠ '\r' →
      StrBody rest → StrBody (c :: rest)
  | esc (c : Char) (rest : List Char) :
      StrBody rest → StrBody ('\\' :: c :: rest)

/-! # Theorems -/

/-- Claim C5: for every input string, the escaper replaces each literal
newline inside a double-quoted string literal with backslash-n, drops
each carriage return inside a string literal, copies a backslash together
with its following character verbatim, toggles the in-string state on
each unescaped quote, and passes everything outside string literals
through unchanged — i.e. `escapeNewlinesInStrings` is exactly the run of
the three-state machine `escSpecStep` described by the spec, started in
the `outside` state. -/
theorem claim_c5 (s : String) :
    escapeNewlinesInStrings s = ⟨escSpecRun .outside s.data⟩ :=
  congrArg String.mk (escGo_eq_escSpecRun s.data).1

/-- Claim C1 (code bug): on the raw model text `{}` the direct
`JSON.parse` succeeds with an object carrying no `suggestions` array, so
the enrichment step `parsed.suggestions.map(...)` throws a `TypeError`
past `generateSuggestions`' boundary (modelled by `none`), contradicting
the claimed totality; the parse ladder itself had succeeded. -/
theorem claim_c1 :
    generateSuggestionsCore "\x7b\x7d" [] = Option.none ∧
    ladderParse (String.data "\x7b\x7d") = Sum.inl (Json.obj []) :=
  ⟨rfl, rfl⟩

/-- Claim C9: if the PR data fetch (`pulls.get` or `pulls.listFiles`),
the Pinecone query, or the suggestion generation step fails terminally —
the latter either because the LLM transport throws or because the
parse-enrich pipeline itself throws past `generateSuggestions`' boundary
(`generateSuggestionsCore` returns `none`, the reachable `TypeError`
path) — `run` issues no comment write call at all (the catch block only
reports the failure). -/
theorem claim_c9 (env : RunEnv) (marker body e : String)
    (h : env.prGet = .error e ∨ env.listFiles = .error e ∨
         env.pinecone = .error e ∨ env.llmRawText = .error e ∨
         (∃ raw docs, env.llmRawText = .ok raw ∧ env.pinecone = .ok docs ∧
           generateSuggestionsCore raw docs = Option.none)) :
    runModel env marker body = [] := by
  obtain ⟨pg, lf, sq, pc, llm, cm, dr⟩ := env
  simp only at h
  cases pg with
  | error _ => simp [runModel]
  | ok _ =>
    cases lf with
    | error _ => simp [runModel]
    | ok _ =>
      cases pc with
      | error _ => simp [runModel]
      | ok docs0 =>
        cases llm with
        | error _ => simp [runModel]
        | ok raw0 =>
          rcases h with h | h | h | h | ⟨raw, docs, hraw, hdocs, hgen⟩
          · simp_all
          · simp_all
          · simp_all
          · simp_all
          · injection hraw with h1
            injection hdocs with h2
            subst h1
            subst h2
            simp [runModel, hgen]

/-- Witness for C9: a failing Pinecone query issues no write, and so
does a run whose LLM answers `\x7b\x7d` — transport succeeds but the
parse-enrich pipeline throws (the C1 `TypeError` path). -/
theorem claim_c9_witness :
    runModel ⟨.ok "pr", .ok [], .ok "q", .error "pinecone down", .ok "\x7b\x7d",
        [⟨1, "hi"⟩], false⟩ "m" "b" = [] ∧
    runModel ⟨.ok "pr", .ok [], .ok "q", .ok [], .ok "\x7b\x7d",
        [⟨1, "hi"⟩], false⟩ "m" "b" = [] :=
  ⟨claim_c9 _ "m" "b" "pinecone down" (Or.inr (Or.inr (Or.inl rfl))),
   claim_c9 _ "m" "b" "e"
     (Or.inr (Or.inr (Or.inr (Or.inr ⟨"\x7b\x7d", [], rfl, rfl, rfl⟩))))⟩

theorem find?_append_first {α} (p : α → Bool) (pre : List α) (c : α) (post : List α)
    (hpre : ∀ a ∈ pre, p a = false) (hc : p c = true) :
    List.find? p (pre ++ c :: post) = some c := by
  induction pre with
  | nil => simp [List.find?, hc]
  | cons a pre ih =>
    have ha := hpre a (List.mem_cons_self a pre)
    simpa [List.find?, ha] using ih fun x hx => hpre x (List.mem_cons_of_mem a hx)

/-- Claim C2: the comment upsert updates the first existing comment whose
body contains the bot marker (issuing no create call) when one exists,
creates a new comment (issuing no update call) when none does, and issues
exactly one write call per invocation. -/
theorem claim_c2 (marker : String) (comments : List ExistingComment) (body : String) :
    (postCommentWrites marker comments body).length = 1 ∧
    (∀ pre c post, comments = pre ++ c :: post →
      (∀ c' ∈ pre, containsSub c'.body.data marker.data = false) →
      containsSub c.body.data marker.data = true →
      postCommentWrites marker comments body = [.update c.id body]) ∧
    ((∀ c ∈ comments, containsSub c.body.data marker.data = false) →
      postCommentWrites marker comments body = [.create body]) := by
  refine ⟨?_, ?_, ?_⟩
  · unfold postCommentWrites
    cases comments.find? (fun c => containsSub c.body.data marker.data) <;> rfl
  · intro pre c post hsplit hpre hc
    subst hsplit
    unfold postCommentWrites
    rw [find?_append_first _ pre c post hpre hc]
  · intro hnone
    unfold postCommentWrites
    rw [List.find?_eq_none.mpr (fun x hx => by simp [hnone x hx])]

/-- Witness for C2, mirroring the repository's `pr-comment.spec.ts`
scenarios: a list with one marker-bearing comment yields exactly the
update call, a list without one yields exactly the create call. -/
theorem claim_c2_witness :
    postCommentWrites "Documentation Update Suggestions"
      [⟨42, "Documentation Update Suggestions"⟩] "new body" =
      [.update 42 "new body"] ∧
    postCommentWrites "Documentation Update Suggestions"
      [⟨1, "Another comment"⟩] "fresh body" = [.create "fresh body"] :=
  ⟨(claim_c2 _ _ _).2.1 [] ⟨42, "Documentation Update Suggestions"⟩ [] rfl
      (by intro c' h; cases h) (by decide),
   (claim_c2 _ _ _).2.2 (by intro c h; rw [List.mem_singleton] at h; subst h; decide)⟩

/-- Claim C4: when the direct parse of the sanitized text fails, the
ladder returns the canonical empty result — `impact_level = none`, a
fixed parse-failure summary and empty suggestions — either immediately
(no `{` or no `}` present) or after the brace-extracted slice also fails
to decode; these early returns skip enrichment, so this tier never
raises. -/
theorem claim_c4 (raw : String) (docs : List QueryResult)
    (hdirect : jsonParseFullL (jsTrimL (sanitizedOf raw.data)) = Option.none) :
    ((idxOfChar '{' (sanitizedOf raw.data) = Option.none ∨
      idxOfChar '}' (sanitizedOf raw.data).reverse = Option.none) →
      generateSuggestionsCore raw docs = some canonicalB) ∧
    (∀ i k, idxOfChar '{' (sanitizedOf raw.data) = some i →
      (idxOfChar '}' (sanitizedOf raw.data).reverse).map
        (fun x => (sanitizedOf raw.data).length - 1 - x) = some k →
      jsonParseFullL (((sanitizedOf raw.data).drop i).take (k + 1 - i)) = Option.none →
      generateSuggestionsCore raw docs = some canonicalA) ∧
    decodeLLM canonicalA =
      some ⟨.none, "Unable to generate suggestions due to parsing error.", Option.none, []⟩ ∧
    decodeLLM canonicalB =
      some ⟨.none, "Unable to generate suggestions - no valid response.", Option.none, []⟩ := by
  refine ⟨?_, ?_, rfl, rfl⟩
  · intro h
    unfold generateSuggestionsCore ladderParse
    rw [hdirect]
    rcases h with h | h
    · rw [h]
    · rw [h]
      cases idxOfChar '{' (sanitizedOf raw.data) <;> rfl
  · intro i k hi hk hslice
    unfold generateSuggestionsCore ladderParse
    rw [hdirect, hi, hk]
    simp [hslice]

/-- Witness for C4 on raw text with no braces at all. -/
theorem claim_c4_witness :
    generateSuggestionsCore "hello" [] = some canonicalB :=
  (claim_c4 "hello" [] rfl).1 (Or.inl rfl)

/-- Claim C10: every record `queryPinecone` formats is fully populated —
one output record per match, with absent metadata and score replaced by
the defaults (`file = unknown`, zeros and the empty string) — and a
defaulted record, whose `file` is the literal string `unknown`,
participates in enrichment's exact-match lookup like any other path. -/
theorem claim_c10 (ms : List RawMatch) (m : RawMatch) (s : Suggestion) :
    (queryPineconeFormat ms).length = ms.length ∧
    (m.metadata = Option.none → m.score = Option.none → m ∈ ms →
      (⟨"unknown", 0, 0, 0, "", 0⟩ : QueryResult) ∈ queryPineconeFormat ms) ∧
    (s.target_file = "unknown" →
      ms.head? = some ⟨Option.none, Option.none⟩ →
      enrichTypedSugg (queryPineconeFormat ms) s =
        { s with start_line := some 0, end_line := some 0 }) := by
  refine ⟨by simp [queryPineconeFormat], ?_, ?_⟩
  · intro h1 h2 hm
    refine List.mem_map.mpr ⟨m, hm, ?_⟩
    simp [h1, h2, jsOrStr]
  · intro hs hh
    cases ms with
    | nil => simp at hh
    | cons m0 rest =>
      simp only [List.head?_cons, Option.some.injEq] at hh
      subst hh
      simp [enrichTypedSugg, queryPineconeFormat, List.find?, jsOrStr, hs]

/-- Witness for C10: one match without metadata or score, and a
suggestion targeting the literal path `unknown` that gets enriched from
the defaulted record. -/
theorem claim_c10_witness :
    (queryPineconeFormat [⟨Option.none, Option.none⟩]).length = 1 ∧
    (⟨"unknown", 0, 0, 0, "", 0⟩ : QueryResult) ∈
      queryPineconeFormat [⟨Option.none, Option.none⟩] ∧
    enrichTypedSugg (queryPineconeFormat [⟨Option.none, Option.none⟩])
      ⟨"unknown", "Sec", .update, "why", "text", .info, Option.none, Option.none⟩ =
      ⟨"unknown", "Sec", .update, "why", "text", .info, some 0, some 0⟩ := by
  obtain ⟨h1, h2, h3⟩ := claim_c10 [⟨Option.none, Option.none⟩] ⟨Option.none, Option.none⟩
    ⟨"unknown", "Sec", .update, "why", "text", .info, Option.none, Option.none⟩
  exact ⟨h1, h2 rfl rfl (List.mem_singleton.mpr rfl), h3 rfl rfl⟩

/-- Counterexample to C6 as stated: the text consisting of the prose
`"` (a single double quote, no fences) followed by a valid
SuggestionSet JSON that contains a structural newline makes the escaper
(which now believes it is inside a string) corrupt the JSON, so the
brace-extracted slice fails to decode and the Recovery Parser returns
the canonical empty result instead of the embedded SuggestionSet. -/
theorem claim_c6_counterexample :
    (∃ j, jsonParseFull
        "\x7b\"impact_level\": \"none\",\n\"summary\": \"s\", \"suggestions\": []\x7d" =
        some j ∧ decodeLLM j = some ⟨.none, "s", Option.none, []⟩) ∧
    decodeLLM (recoveryParse
        ("\"" ++ "\x7b\"impact_level\": \"none\",\n\"summary\": \"s\", \"suggestions\": []\x7d")) =
      some ⟨.none, "Unable to generate suggestions due to parsing error.", Option.none, []⟩ ∧
    (⟨.none, "s", Option.none, []⟩ : LLMResponse) ≠
      ⟨.none, "Unable to generate suggestions due to parsing error.", Option.none, []⟩ :=
  ⟨⟨_, rfl, rfl⟩, rfl, by decide⟩

/-- Counterexample to C7 as stated: a valid SuggestionSet JSON whose
`summary` contains a triple backtick, wrapped in a fenced `json` block.
The non-greedy fence regex stops at the inner backticks, the truncated
content has no closing brace, and the Recovery Parser returns the
canonical empty result instead of a value deep-equal to the embedded
SuggestionSet. -/
theorem claim_c7_counterexample :
    (∃ j, jsonParseFull
        "\x7b\"impact_level\":\"none\",\"summary\":\"a```b\",\"suggestions\":[]\x7d" =
        some j ∧ decodeLLM j = some ⟨.none, "a```b", Option.none, []⟩) ∧
    decodeLLM (recoveryParse
        ("```json\n" ++
         "\x7b\"impact_level\":\"none\",\"summary\":\"a```b\",\"suggestions\":[]\x7d" ++
         "\n```")) =
      some ⟨.none, "Unable to generate suggestions - no valid response.", Option.none, []⟩ ∧
    (⟨.none, "a```b", Option.none, []⟩ : LLMResponse) ≠
      ⟨.none, "Unable to generate suggestions - no valid response.", Option.none, []⟩ :=
  ⟨⟨_, rfl, rfl⟩, rfl, by decide⟩

/-! ### Field-lookup lemmas for the enrichment proof -/

theorem getField_append (a b : List (String × Json)) (k : String) :
    getField (a ++ b) k =
      match getField b k with
      | some v => some v
      | Option.none => getField a k := by
  induction a with
  | nil =>
    simp only [List.nil_append]
    cases getField b k <;> simp [getField]
  | cons p a ih =>
    obtain ⟨k', v'⟩ := p
    cases hb : getField b k <;> cases ha : getField a k <;>
      simp [getField, ih, hb, ha]

theorem getField_none_of_all (fs : List (String × Json)) (k : String)
    (h : ∀ p ∈ fs, p.1 ≠ k) : getField fs k = Option.none := by
  induction fs with
  | nil => rfl
  | cons p fs ih =>
    obtain ⟨k', v'⟩ := p
    have hk' : k' ≠ k := h (k', v') (List.mem_cons_self _ _)
    simp only [getField, ih fun q hq => h q (List.mem_cons_of_mem _ hq), hk']
    simp [hk']

theorem getField_filterSE (fs : List (String × Json)) (k : String)
    (h1 : k ≠ "start_line") (h2 : k ≠ "end_line") :
    getField (fs.filter (fun p => p.1 ≠ "start_line" ∧ p.1 ≠ "end_line")) k =
      getField fs k := by
  induction fs with
  | nil => rfl
  | cons p fs ih =>
    obtain ⟨k', v'⟩ := p
    by_cases hk : k' ≠ "start_line" ∧ k' ≠ "end_line"
    · have hfilter :
          List.filter (fun p => decide (p.1 ≠ "start_line" ∧ p.1 ≠ "end_line"))
            ((k', v') :: fs) =
          (k', v') ::
            List.filter (fun p => decide (p.1 ≠ "start_line" ∧ p.1 ≠ "end_line")) fs := by
        simp [List.filter_cons, hk.1, hk.2]
      rw [hfilter]
      simp only [getField, ih]
    · have hkne : k' ≠ k := by
        rcases not_and_or.mp hk with h | h
        · rw [not_not.mp h]; exact fun e => h1 e.symm
        · rw [not_not.mp h]; exact fun e => h2 e.symm
      have hfilter :
          List.filter (fun p => decide (p.1 ≠ "start_line" ∧ p.1 ≠ "end_line"))
            ((k', v') :: fs) =
          List.filter (fun p => decide (p.1 ≠ "start_line" ∧ p.1 ≠ "end_line")) fs := by
        simp [List.filter_cons, hk]
      rw [hfilter, ih]
      simp only [getField]
      cases getField fs k <;> simp [hkne]

theorem getField_filterSE_absent (fs : List (String × Json)) :
    getField (fs.filter (fun p => p.1 ≠ "start_line" ∧ p.1 ≠ "end_line"))
      "start_line" = Option.none ∧
    getField (fs.filter (fun p => p.1 ≠ "start_line" ∧ p.1 ≠ "end_line"))
      "end_line" = Option.none := by
  constructor <;>
  · apply getField_none_of_all
    intro p hp
    have := (List.mem_filter.mp hp).2
    simp only [decide_eq_true_eq] at this
    first
      | exact this.1
      | exact this.2

theorem getField_setSugg_ne (fs : List (String × Json)) (w : Json) (k : String)
    (h : k ≠ "suggestions") :
    getField (fs.map (fun p => if p.1 = "suggestions" then (p.1, w) else p)) k =
      getField fs k := by
  induction fs with
  | nil => rfl
  | cons p fs ih =>
    obtain ⟨k', v'⟩ := p
    by_cases hk : k' = "suggestions"
    · subst hk
      rw [List.map_cons]
      have hhead :
          (if (("suggestions", v') : String × Json).1 = "suggestions"
           then ((("suggestions", v') : String × Json).1, w)
           else (("suggestions", v') : String × Json)) = ("suggestions", w) := by simp
      rw [hhead]
      simp only [getField, ih]
      cases getField fs k <;> simp [Ne.symm h]
    · rw [List.map_cons]
      have hhead :
          (if ((k', v') : String × Json).1 = "suggestions"
           then (((k', v') : String × Json).1, w)
           else ((k', v') : String × Json)) = (k', v') := by simp [hk]
      rw [hhead]
      simp only [getField, ih]

theorem getField_setSugg_self (fs : List (String × Json)) (w : Json) :
    getField (fs.map (fun p => if p.1 = "suggestions" then (p.1, w) else p))
      "suggestions" = (getField fs "suggestions").map (fun _ => w) := by
  induction fs with
  | nil => rfl
  | cons p fs ih =>
    obtain ⟨k', v'⟩ := p
    by_cases hk : k' = "suggestions"
    · subst hk
      rw [List.map_cons]
      have hhead :
          (if (("suggestions", v') : String × Json).1 = "suggestions"
           then ((("suggestions", v') : String × Json).1, w)
           else (("suggestions", v') : String × Json)) = ("suggestions", w) := by simp
      rw [hhead]
      simp only [getField, ih]
      cases getField fs "suggestions" <;> simp
    · rw [List.map_cons]
      have hhead :
          (if ((k', v') : String × Json).1 = "suggestions"
           then (((k', v') : String × Json).1, w)
           else ((k', v') : String × Json)) = (k', v') := by simp [hk]
      rw [hhead]
      simp only [getField, ih]
      cases getField fs "suggestions" <;> simp [hk]

theorem decodeStrJ_some {j : Json} {t : String} (h : decodeStrJ j = some t) :
    j = .str t := by
  cases j <;> simp_all [decodeStrJ]

theorem getField_enrichBase (fs : List (String × Json)) (tail : List (String × Json))
    (k : String) (h1 : k ≠ "start_line") (h2 : k ≠ "end_line")
    (htail : getField tail k = Option.none) :
    getField ((fs.filter (fun p => p.1 ≠ "start_line" ∧ p.1 ≠ "end_line")) ++ tail) k =
      getField fs k := by
  rw [getField_append, htail, getField_filterSE fs k h1 h2]

theorem decodeSugg_enrich (docs : List QueryResult) (e : Json) (s : Suggestion)
    (h : decodeSugg e = some s) :
    decodeSugg (enrichSuggestionJ docs e) = some (enrichTypedSugg docs s) := by
  cases e with
  | obj fs =>
    simp only [decodeSugg] at h
    rcases h1 : (getField fs "target_file").bind decodeStrJ with _ | tf <;> rw [h1] at h <;>
      [simp at h; skip]
    rcases h2 : (getField fs "target_section").bind decodeStrJ with _ | ts <;> rw [h2] at h <;>
      [simp at h; skip]
    rcases h3 : (getField fs "type").bind decodeSuggType with _ | ty <;> rw [h3] at h <;>
      [simp at h; skip]
    rcases h4 : (getField fs "rationale").bind decodeStrJ with _ | ra <;> rw [h4] at h <;>
      [simp at h; skip]
    rcases h5 : (getField fs "suggested_text").bind decodeStrJ with _ | st <;> rw [h5] at h <;>
      [simp at h; skip]
    rcases h6 : (getField fs "severity").bind decodeSeverity with _ | se <;> rw [h6] at h <;>
      [simp at h; skip]
    rcases h7 : decodeOptField fs "start_line" decodeIntJ with _ | sl <;> rw [h7] at h <;>
      [simp at h; skip]
    rcases h8 : decodeOptField fs "end_line" decodeIntJ with _ | el <;> rw [h8] at h <;>
      [simp at h; skip]
    simp only [Option.some.injEq] at h
    subst h
    obtain ⟨jtf, hjf, hjd⟩ := Option.bind_eq_some.mp h1
    have hjtf : jtf = .str tf := decodeStrJ_some hjd
    subst hjtf
    simp only [enrichSuggestionJ, hjf]
    cases hfind : docs.find? (fun d => d.file = tf) with
    | some d =>
      simp only [decodeSugg]
      have tailn : ∀ k' : String, k' ≠ "start_line" → k' ≠ "end_line" →
          getField [("start_line", Json.num d.startLine 0),
                    ("end_line", Json.num d.endLine 0)] k' = Option.none := by
        intro k' hk1 hk2
        simp [getField, Ne.symm hk1, Ne.symm hk2]
      rw [getField_enrichBase fs _ "target_file" (by decide) (by decide)
            (tailn _ (by decide) (by decide)), h1,
          getField_enrichBase fs _ "target_section" (by decide) (by decide)
            (tailn _ (by decide) (by decide)), h2,
          getField_enrichBase fs _ "type" (by decide) (by decide)
            (tailn _ (by decide) (by decide)), h3,
          getField_enrichBase fs _ "rationale" (by decide) (by decide)
            (tailn _ (by decide) (by decide)), h4,
          getField_enrichBase fs _ "suggested_text" (by decide) (by decide)
            (tailn _ (by decide) (by decide)), h5,
          getField_enrichBase fs _ "severity" (by decide) (by decide)
            (tailn _ (by decide) (by decide)), h6]
      have hsl : decodeOptField
          ((fs.filter (fun p => p.1 ≠ "start_line" ∧ p.1 ≠ "end_line")) ++
            [("start_line", Json.num d.startLine 0), ("end_line", Json.num d.endLine 0)])
          "start_line" decodeIntJ = some (some d.startLine) := by
        unfold decodeOptField
        rw [getField_append]
        simp [getField, decodeIntJ]
      have hel : decodeOptField
          ((fs.filter (fun p => p.1 ≠ "start_line" ∧ p.1 ≠ "end_line")) ++
            [("start_line", Json.num d.startLine 0), ("end_line", Json.num d.endLine 0)])
          "end_line" decodeIntJ = some (some d.endLine) := by
        unfold decodeOptField
        rw [getField_append]
        simp [getField, decodeIntJ]
      rw [hsl, hel]
      simp [enrichTypedSugg, hfind]
    | none =>
      simp only [decodeSugg]
      rw [getField_filterSE fs "target_file" (by decide) (by decide), h1,
          getField_filterSE fs "target_section" (by decide) (by decide), h2,
          getField_filterSE fs "type" (by decide) (by decide), h3,
          getField_filterSE fs "rationale" (by decide) (by decide), h4,
          getField_filterSE fs "suggested_text" (by decide) (by decide), h5,
          getField_filterSE fs "severity" (by decide) (by decide), h6]
      have hsl : decodeOptField
          (fs.filter (fun p => p.1 ≠ "start_line" ∧ p.1 ≠ "end_line"))
          "start_line" decodeIntJ = some Option.none := by
        unfold decodeOptField
        rw [(getField_filterSE_absent fs).1]
      have hel : decodeOptField
          (fs.filter (fun p => p.1 ≠ "start_line" ∧ p.1 ≠ "end_line"))
          "end_line" decodeIntJ = some Option.none := by
        unfold decodeOptField
        rw [(getField_filterSE_absent fs).2]
      rw [hsl, hel]
      simp [enrichTypedSugg, hfind]
  | null => simp [decodeSugg] at h
  | bool b => simp [decodeSugg] at h
  | num m e => simp [decodeSugg] at h
  | str t => simp [decodeSugg] at h
  | arr xs => simp [decodeSugg] at h

theorem mapM_decodeSugg_enrich (docs : List QueryResult) (elems : List Json)
    (ss : List Suggestion) (h : elems.mapM decodeSugg = some ss) :
    (elems.map (enrichSuggestionJ docs)).mapM decodeSugg =
      some (ss.map (enrichTypedSugg docs)) := by
  induction elems generalizing ss with
  | nil =>
    simp only [List.mapM_nil, pure, Option.some.injEq] at h
    subst h
    rfl
  | cons e es ih =>
    rw [List.mapM_cons] at h
    obtain ⟨v, hv, h⟩ := Option.bind_eq_some.mp h
    obtain ⟨vs, hvs, h⟩ := Option.bind_eq_some.mp h
    simp only [pure, Option.some.injEq] at h
    subst h
    rw [List.map_cons, List.mapM_cons, decodeSugg_enrich docs e v hv, ih vs hvs]
    rfl

/-- Claim C3: for every parsed (conformant) SuggestionSet and every list
of ContextRecords, enrichment succeeds and returns a SuggestionSet of
identical shape and order in which each suggestion's
`start_line`/`end_line` come from the first ContextRecord whose `file`
equals the suggestion's `target_file` (exact string equality), are
present iff such a record exists, and all other suggestion fields as well
as `impact_level`, `summary` and `comment_intro` are unchanged — the
conclusion is stated through `enrichTypedSugg`, which is exactly that
per-suggestion update. -/
theorem claim_c3 (docs : List QueryResult) (j : Json) (S : LLMResponse)
    (h : decodeLLM j = some S) :
    ∃ j', enrichJson docs j = some j' ∧
      decodeLLM j' = some ⟨S.impact_level, S.summary, S.comment_intro,
        S.suggestions.map (enrichTypedSugg docs)⟩ := by
  cases j with
  | obj fs =>
    simp only [decodeLLM] at h
    rcases h1 : (getField fs "impact_level").bind decodeImpact with _ | il <;>
      rw [h1] at h <;> [simp at h; skip]
    rcases h2 : (getField fs "summary").bind decodeStrJ with _ | su <;>
      rw [h2] at h <;> [simp at h; skip]
    rcases h3 : decodeOptField fs "comment_intro" decodeStrJ with _ | ci <;>
      rw [h3] at h <;> [simp at h; skip]
    rcases h4 : getField fs "suggestions" with _ | sg <;> rw [h4] at h
    · simp at h
    cases sg with
    | arr elems =>
      replace h : (match elems.mapM decodeSugg with
        | some ss => some (⟨il, su, ci, ss⟩ : LLMResponse)
        | Option.none => Option.none) = some S := h
      rcases h5 : elems.mapM decodeSugg with _ | ss <;> rw [h5] at h <;>
        [simp at h; skip]
      simp only [Option.some.injEq] at h
      subst h
      refine ⟨Json.obj (fs.map (fun p =>
        if p.1 = "suggestions"
        then (p.1, Json.arr (elems.map (enrichSuggestionJ docs)))
        else p)), ?_, ?_⟩
      · simp only [enrichJson, h4]
      · simp only [decodeLLM]
        have g1 := getField_setSugg_ne fs
          (Json.arr (elems.map (enrichSuggestionJ docs))) "impact_level" (by decide)
        have g2 := getField_setSugg_ne fs
          (Json.arr (elems.map (enrichSuggestionJ docs))) "summary" (by decide)
        have g3 := getField_setSugg_ne fs
          (Json.arr (elems.map (enrichSuggestionJ docs))) "comment_intro" (by decide)
        have g4 : getField (fs.map (fun p =>
            if p.1 = "suggestions"
            then (p.1, Json.arr (elems.map (enrichSuggestionJ docs)))
            else p)) "suggestions" =
            some (Json.arr (elems.map (enrichSuggestionJ docs))) := by
          rw [getField_setSugg_self, h4]
          rfl
        rw [g1, h1, g2, h2]
        have g3' : decodeOptField (fs.map (fun p =>
            if p.1 = "suggestions"
            then (p.1, Json.arr (elems.map (enrichSuggestionJ docs)))
            else p)) "comment_intro" decodeStrJ = some ci := by
          unfold decodeOptField
          unfold decodeOptField at h3
          rw [g3]
          exact h3
        rw [g3', g4]
        show (match (elems.map (enrichSuggestionJ docs)).mapM decodeSugg with
          | some ss' => some (⟨il, su, ci, ss'⟩ : LLMResponse)
          | Option.none => Option.none) =
          some ⟨il, su, ci, ss.map (enrichTypedSugg docs)⟩
        rw [mapM_decodeSugg_enrich docs elems ss h5]
    | null => simp at h
    | bool b => simp at h
    | num m e => simp at h
    | str t => simp at h
    | obj gs => simp at h
  | null => simp [decodeLLM] at h
  | bool b => simp [decodeLLM] at h
  | num m e => simp [decodeLLM] at h
  | str t => simp [decodeLLM] at h
  | arr xs => simp [decodeLLM] at h

/-- Witness for C3 on a one-suggestion set and one matching context
record: the lines 10–20 of `docs/a.md` are attached, everything else is
unchanged. -/
theorem claim_c3_witness :
    ∃ j', enrichJson [⟨"docs/a.md", 0, 10, 20, "txt", 1⟩]
        (Json.obj [("impact_level", .str "low"), ("summary", .str "sum"),
          ("suggestions", .arr [Json.obj
            [("target_file", .str "docs/a.md"), ("target_section", .str "Sec"),
             ("type", .str "update"), ("rationale", .str "r"),
             ("suggested_text", .str "t2"), ("severity", .str "info")]])]) =
        some j' ∧
      decodeLLM j' = some ⟨.low, "sum", Option.none,
        [⟨"docs/a.md", "Sec", .update, "r", "t2", .info, some 10, some 20⟩]⟩ := by
  have h : decodeLLM
      (Json.obj [("impact_level", .str "low"), ("summary", .str "sum"),
        ("suggestions", .arr [Json.obj
          [("target_file", .str "docs/a.md"), ("target_section", .str "Sec"),
           ("type", .str "update"), ("rationale", .str "r"),
           ("suggested_text", .str "t2"), ("severity", .str "info")]])]) =
      some ⟨.low, "sum", Option.none,
        [⟨"docs/a.md", "Sec", .update, "r", "t2", .info, Option.none, Option.none⟩]⟩ := rfl
  simpa using claim_c3 [⟨"docs/a.md", 0, 10, 20, "txt", 1⟩] _ _ h

/-! ### The escaper copies parser-accepted JSON verbatim -/

theorem escId_nil : EscId [] := fun _ => rfl

theorem escId_append {a b : List Char} (ha : EscId a) (hb : EscId b) :
    EscId (a ++ b) := by
  intro c
  rw [List.append_assoc, ha, hb, List.append_assoc]

theorem escGo_out_cons {c : Char} (hc : c ≠ '"') (cs : List Char) (e : Bool) :
    escGo (c :: cs) false e = c :: escGo cs false e := by
  simp [escGo, hc]

theorem escGo_out_quote (cs : List Char) (e : Bool) :
    escGo ('"' :: cs) false e = '"' :: escGo cs true e := by
  simp [escGo]

theorem escGo_in_esc (c : Char) (cs : List Char) :
    escGo (c :: cs) true true = c :: escGo cs true false := by
  simp [escGo]

theorem escGo_in_bsl (cs : List Char) :
    escGo ('\\' :: cs) true false = '\\' :: escGo cs true true := by
  simp [escGo]

theorem escGo_in_quote (cs : List Char) :
    escGo ('"' :: cs) true false = '"' :: escGo cs false false := by
  simp [escGo]

theorem escGo_in_ord {c : Char} (hq : c ≠ '"') (hb : c ≠ '\\')
    (hn : c ≠ '\n') (hr : c ≠ '\r') (cs : List Char) :
    escGo (c :: cs) true false = c :: escGo cs true false := by
  simp [escGo, hq, hb, hn, hr]

theorem escId_noquote {a : List Char} (h : ∀ c ∈ a, c ≠ '"') : EscId a := by
  induction a with
  | nil => exact escId_nil
  | cons c cs ih =>
    intro b
    rw [List.cons_append, escGo_out_cons (h c (List.mem_cons_self _ _)),
      ih (fun x hx => h x (List.mem_cons_of_mem _ hx)) b, List.cons_append]

theorem escGo_strBody {body : List Char} (h : StrBody body) :
    ∀ b, escGo (body ++ '"' :: b) true false = body ++ '"' :: escGo b false false := by
  induction h with
  | nil =>
    intro b
    rw [List.nil_append, escGo_in_quote, List.nil_append]
  | ord c rest hq hbsl hn hr _ ih =>
    intro b
    rw [List.cons_append, escGo_in_ord hq hbsl hn hr, ih b, List.cons_append]
  | esc c rest _ ih =>
    intro b
    rw [List.cons_append, List.cons_append, escGo_in_bsl, escGo_in_esc, ih b,
      List.cons_append, List.cons_append]

theorem escId_string {body : List Char} (h : StrBody body) :
    EscId ('"' :: body ++ ['"']) := by
  intro b
  have h1 : ('"' :: body ++ ['"']) ++ b = '"' :: (body ++ '"' :: b) := by simp
  rw [h1, escGo_out_quote, escGo_strBody h b]
  simp

/-- `Consumed cs rest`: the parser went from input `cs` to remainder
`rest` and the consumed prefix is escaper-transparent. -/
def Consumed (cs rest : List Char) : Prop :=
  ∃ a, cs = a ++ rest ∧ EscId a

theorem consumed_refl (cs : List Char) : Consumed cs cs :=
  ⟨[], rfl, escId_nil⟩

theorem consumed_trans {cs mid rest : List Char}
    (h1 : Consumed cs mid) (h2 : Consumed mid rest) : Consumed cs rest := by
  obtain ⟨a, ha, hia⟩ := h1
  obtain ⟨b, hb, hib⟩ := h2
  exact ⟨a ++ b, by rw [ha, hb, List.append_assoc], escId_append hia hib⟩

theorem consumed_cons {cs rest : List Char} (c : Char) (hc : c ≠ '"')
    (h : Consumed cs rest) : Consumed (c :: cs) rest := by
  obtain ⟨a, ha, hia⟩ := h
  refine ⟨c :: a, by rw [ha]; rfl, ?_⟩
  have h2 : c :: a = [c] ++ a := rfl
  rw [h2]
  exact escId_append (escId_noquote (by simpa using hc)) hia

theorem jsonWs_ne_quote {c : Char} (h : jsonWs c = true) : c ≠ '"' := by
  intro e
  subst e
  simp [jsonWs] at h

theorem consumed_skipWs (cs : List Char) : Consumed cs (skipWs cs) := by
  refine ⟨cs.takeWhile jsonWs, (List.takeWhile_append_dropWhile jsonWs cs).symm, ?_⟩
  exact escId_noquote fun c hc => jsonWs_ne_quote (List.mem_takeWhile_imp hc)

theorem numChar_ne_quote {c : Char} (h : numChar c = true) : c ≠ '"' := by
  intro e
  subst e
  simp [numChar, Char.isDigit] at h

theorem consumed_parseNum {cs rest : List Char} {j : Json}
    (h : parseNum cs = some (j, rest)) : Consumed cs rest := by
  unfold parseNum at h
  rcases hf : numFromToken (cs.takeWhile numChar) with _ | j' <;> rw [hf] at h
  · exact absurd h (by simp)
  · simp only [Option.some.injEq, Prod.mk.injEq] at h
    refine ⟨cs.takeWhile numChar, ?_, ?_⟩
    · rw [← h.2]
      exact (List.takeWhile_append_dropWhile numChar cs).symm
    · exact escId_noquote fun c hc => numChar_ne_quote (List.mem_takeWhile_imp hc)

theorem hexArg_ne {c : Char} {n : Nat} (h : hex? c = some n) :
    c ≠ '"' ∧ c ≠ '\\' ∧ c ≠ '\n' ∧ c ≠ '\r' := by
  refine ⟨fun e => ?_, fun e => ?_, fun e => ?_, fun e => ?_⟩ <;> subst e <;>
    (have hs := congrArg Option.isSome h
     rw [Option.isSome_some] at hs
     exact absurd hs (by decide))

theorem parseStrBody_sound (f : Nat) (cs acc : List Char) :
    ∀ out rest, parseStrBody f cs acc = some (out, rest) →
      ∃ body, cs = body ++ '"' :: rest ∧ StrBody body := by
  induction f, cs, acc using parseStrBody.induct with
  | case1 x x1 =>
    intro out rest h
    exact absurd h (by simp [parseStrBody])
  | case2 n x =>
    intro out rest h
    exact absurd h (by simp [parseStrBody])
  | case3 f cs acc =>
    intro out rest h
    simp [parseStrBody] at h
    exact ⟨[], by simp [h.2], StrBody.nil⟩
  | case4 f acc h1 =>
    intro out rest h
    exact absurd h (by simp [parseStrBody])
  | case5 f acc cs' h1 ih =>
    intro out rest h
    simp [parseStrBody] at h
    obtain ⟨body, hb, hsb⟩ := ih out rest h
    exact ⟨'\\' :: '"' :: body, by simp [hb], StrBody.esc _ _ hsb⟩
  | case6 f acc cs' h1 h2 ih =>
    intro out rest h
    simp [parseStrBody] at h
    obtain ⟨body, hb, hsb⟩ := ih out rest h
    exact ⟨'\\' :: '\\' :: body, by simp [hb], StrBody.esc _ _ hsb⟩
  | case7 f acc cs' h1 h2 h3 ih =>
    intro out rest h
    simp [parseStrBody] at h
    obtain ⟨body, hb, hsb⟩ := ih out rest h
    exact ⟨'\\' :: '/' :: body, by simp [hb], StrBody.esc _ _ hsb⟩
  | case8 f acc cs' h1 h2 h3 h4 ih =>
    intro out rest h
    simp [parseStrBody] at h
    obtain ⟨body, hb, hsb⟩ := ih out rest h
    exact ⟨'\\' :: 'b' :: body, by simp [hb], StrBody.esc _ _ hsb⟩
  | case9 f acc cs' h1 h2 h3 h4 h5 ih =>
    intro out rest h
    simp [parseStrBody] at h
    obtain ⟨body, hb, hsb⟩ := ih out rest h
    exact ⟨'\\' :: 'f' :: body, by simp [hb], StrBody.esc _ _ hsb⟩
  | case10 f acc cs' h1 h2 h3 h4 h5 h6 ih =>
    intro out rest h
    simp [parseStrBody] at h
    obtain ⟨body, hb, hsb⟩ := ih out rest h
    exact ⟨'\\' :: 'n' :: body, by simp [hb], StrBody.esc _ _ hsb⟩
  | case11 f acc cs' h1 h2 h3 h4 h5 h6 h7 ih =>
    intro out rest h
    simp [parseStrBody] at h
    obtain ⟨body, hb, hsb⟩ := ih out rest h
    exact ⟨'\\' :: 'r' :: body, by simp [hb], StrBody.esc _ _ hsb⟩
  | case12 f acc cs' h1 h2 h3 h4 h5 h6 h7 h8 ih =>
    intro out rest h
    simp [parseStrBody] at h
    obtain ⟨body, hb, hsb⟩ := ih out rest h
    exact ⟨'\\' :: 't' :: body, by simp [hb], StrBody.esc _ _ hsb⟩
  | case13 f acc h1 h2 h3 h4 cs'' n hx c1 c2 c3 c4 c5 c6 c7 c8 c9 ih =>
    intro out rest h
    simp only [parseStrBody, hx] at h
    obtain ⟨body, hb, hsb⟩ := ih out rest h
    obtain ⟨x1, hh1, hr1⟩ := Option.bind_eq_some.mp hx
    obtain ⟨x2, hh2, hr2⟩ := Option.bind_eq_some.mp hr1
    obtain ⟨x3, hh3, hr3⟩ := Option.bind_eq_some.mp hr2
    obtain ⟨x4, hh4, _⟩ := Option.bind_eq_some.mp hr3
    have n1 := hexArg_ne hh1
    have n2 := hexArg_ne hh2
    have n3 := hexArg_ne hh3
    have n4 := hexArg_ne hh4
    refine ⟨'\\' :: 'u' :: h1 :: h2 :: h3 :: h4 :: body, by simp [hb], ?_⟩
    exact StrBody.esc _ _ (StrBody.ord _ _ n1.1 n1.2.1 n1.2.2.1 n1.2.2.2
      (StrBody.ord _ _ n2.1 n2.2.1 n2.2.2.1 n2.2.2.2
        (StrBody.ord _ _ n3.1 n3.2.1 n3.2.2.1 n3.2.2.2
          (StrBody.ord _ _ n4.1 n4.2.1 n4.2.2.1 n4.2.2.2 hsb))))
  | case14 f acc h1 h2 h3 h4 cs'' hx =>
    intro out rest h
    simp [parseStrBody, hx] at h
  | case15 f acc cs' hshort =>
    intro out rest h
    match cs' with
    | [] => exact absurd h (by simp [parseStrBody])
    | [a] => exact absurd h (by simp [parseStrBody])
    | [a, b] => exact absurd h (by simp [parseStrBody])
    | [a, b, c] => exact absurd h (by simp [parseStrBody])
    | a :: b :: c :: d :: es => exact absurd rfl (hshort a b c d es)
  | case16 f acc e cs' h1 h2 h3 h4 h5 h6 h7 h8 h9 h10 =>
    intro out rest h
    simp [parseStrBody, h1, h2, h3, h4, h5, h6, h7, h8, h9] at h
  | case17 f c cs acc h1 h2 hlt =>
    intro out rest h
    simp [parseStrBody, h1, h2, hlt] at h
  | case18 f c cs acc h1 h2 hlt ih =>
    intro out rest h
    simp [parseStrBody, h1, h2, hlt] at h
    obtain ⟨body, hb, hsb⟩ := ih out rest h
    have hn : c ≠ '\n' := by
      intro e; subst e; exact hlt (by decide)
    have hr : c ≠ '\r' := by
      intro e; subst e; exact hlt (by decide)
    exact ⟨c :: body, by simp [hb], StrBody.ord _ _ h1 h2 hn hr hsb⟩

theorem consumed_char (c : Char) (hc : c ≠ '"') (rest : List Char) :
    Consumed (c :: rest) rest :=
  consumed_cons c hc (consumed_refl rest)

theorem consumed_skipWs_to {r tail : List Char} (c : Char) (hc : c ≠ '"')
    (hx : skipWs r = c :: tail) : Consumed r tail := by
  refine consumed_trans (consumed_skipWs r) ?_
  rw [hx]
  exact consumed_char c hc tail

theorem consumed_string {f : Nat} {r out rest : List Char}
    (h : parseStrBody f r [] = some (out, rest)) : Consumed ('"' :: r) rest := by
  obtain ⟨body, hb, hsb⟩ := parseStrBody_sound f r [] out rest h
  refine ⟨'"' :: body ++ ['"'], ?_, escId_string hsb⟩
  rw [hb]
  simp

theorem parse_sound (f : Nat) :
    (∀ cs j rest, parseValue f cs = some (j, rest) → Consumed cs rest) ∧
    (∀ cs vs rest, parseArrLoop f cs = some (vs, rest) → Consumed cs rest) ∧
    (∀ cs ps rest, parseObjLoop f cs = some (ps, rest) → Consumed cs rest) := by
  induction f with
  | zero =>
    refine ⟨?_, ?_, ?_⟩ <;> intro cs x rest h <;>
      exact absurd h (by simp [parseValue, parseArrLoop, parseObjLoop])
  | succ f ih =>
    obtain ⟨ihV, ihA, ihO⟩ := ih
    refine ⟨?_, ?_, ?_⟩
    · intro cs j rest h
      rw [parseValue.eq_def] at h
      rw [show f + 1 = Nat.succ f from rfl] at h
      split at h
      · rename_i heq
        exact absurd heq (by simp)
      · rename_i cs1 g1 g2 f2 heq
        rw [show f2 = f from (Nat.succ.inj heq).symm] at h
        split at h
        · -- null
          simp only [Option.some.injEq, Prod.mk.injEq] at h
          rw [← h.2]
          exact consumed_cons _ (by decide) (consumed_cons _ (by decide)
            (consumed_cons _ (by decide) (consumed_cons _ (by decide) (consumed_refl _))))
        · -- true
          simp only [Option.some.injEq, Prod.mk.injEq] at h
          rw [← h.2]
          exact consumed_cons _ (by decide) (consumed_cons _ (by decide)
            (consumed_cons _ (by decide) (consumed_cons _ (by decide) (consumed_refl _))))
        · -- false
          simp only [Option.some.injEq, Prod.mk.injEq] at h
          rw [← h.2]
          exact consumed_cons _ (by decide) (consumed_cons _ (by decide)
            (consumed_cons _ (by decide) (consumed_cons _ (by decide)
              (consumed_cons _ (by decide) (consumed_refl _)))))
        · -- string
          rename_i r
          rcases hsb : parseStrBody f r [] with _ | ⟨content, rest1⟩ <;> rw [hsb] at h
          · exact absurd h (by simp)
          · simp only [Option.some.injEq, Prod.mk.injEq] at h
            rw [← h.2]
            exact consumed_string hsb
        · -- array
          rename_i r
          split at h
          · rename_i r2 hx
            simp only [Option.some.injEq, Prod.mk.injEq] at h
            rw [← h.2]
            exact consumed_cons _ (by decide) (consumed_skipWs_to _ (by decide) hx)
          · rename_i cs2 hne
            rcases ha : parseArrLoop f (skipWs r) with _ | ⟨vs, rest1⟩ <;> rw [ha] at h
            · exact absurd h (by simp)
            · simp only [Option.some.injEq, Prod.mk.injEq] at h
              rw [← h.2]
              refine consumed_cons _ (by decide) ?_
              exact consumed_trans (consumed_skipWs r) (ihA _ _ _ ha)
        · -- object
          rename_i r
          split at h
          · rename_i r2 hx
            simp only [Option.some.injEq, Prod.mk.injEq] at h
            rw [← h.2]
            exact consumed_cons _ (by decide) (consumed_skipWs_to _ (by decide) hx)
          · rename_i cs2 hne
            rcases ho : parseObjLoop f (skipWs r) with _ | ⟨ps, rest1⟩ <;> rw [ho] at h
            · exact absurd h (by simp)
            · simp only [Option.some.injEq, Prod.mk.injEq] at h
              rw [← h.2]
              refine consumed_cons _ (by decide) ?_
              exact consumed_trans (consumed_skipWs r) (ihO _ _ _ ho)
        · -- number
          exact consumed_parseNum h
    · intro cs vs rest h
      rw [parseArrLoop.eq_def] at h
      rw [show f + 1 = Nat.succ f from rfl] at h
      split at h
      · rename_i heq
        exact absurd heq (by simp)
      · rename_i cs1 g1 g2 f2 heq
        rw [show f2 = f from (Nat.succ.inj heq).symm] at h
        rcases hv : parseValue f cs1 with _ | ⟨v, r1⟩ <;> rw [hv] at h
        · exact absurd h (by simp)
        · have c1 : Consumed cs1 r1 := ihV _ _ _ hv
          simp only [] at h
          split at h
          · -- comma
            rename_i r2 hx
            rcases ha : parseArrLoop f (skipWs r2) with _ | ⟨vs1, rest1⟩ <;> rw [ha] at h
            · exact absurd h (by simp)
            · simp only [Option.some.injEq, Prod.mk.injEq] at h
              rw [← h.2]
              refine consumed_trans c1
                (consumed_trans (consumed_skipWs_to _ (by decide) hx) ?_)
              exact consumed_trans (consumed_skipWs r2) (ihA _ _ _ ha)
          · -- close bracket
            rename_i r2 hx
            simp only [Option.some.injEq, Prod.mk.injEq] at h
            rw [← h.2]
            exact consumed_trans c1 (consumed_skipWs_to _ (by decide) hx)
          · exact absurd h (by simp)
    · intro cs ps rest h
      rw [parseObjLoop.eq_def] at h
      rw [show f + 1 = Nat.succ f from rfl] at h
      split at h
      · rename_i heq
        exact absurd heq (by simp)
      · rename_i cs1 g1 g2 f2 heq
        rw [show f2 = f from (Nat.succ.inj heq).symm] at h
        split at h
        · rename_i r
          rcases hsb : parseStrBody f r [] with _ | ⟨key, r2⟩ <;> rw [hsb] at h
          · exact absurd h (by simp)
          · have c1 : Consumed ('"' :: r) r2 := consumed_string hsb
            simp only [] at h
            split at h
            · rename_i r3 hx
              rcases hv : parseValue f (skipWs r3) with _ | ⟨v, r4⟩ <;> rw [hv] at h
              · exact absurd h (by simp)
              · simp only [] at h
                have c2 : Consumed r2 r4 :=
                  consumed_trans (consumed_skipWs_to _ (by decide) hx)
                    (consumed_trans (consumed_skipWs r3) (ihV _ _ _ hv))
                split at h
                · -- comma
                  rename_i r5 hx2
                  rcases ho : parseObjLoop f (skipWs r5) with _ | ⟨ps1, rest1⟩ <;>
                    rw [ho] at h
                  · exact absurd h (by simp)
                  · simp only [Option.some.injEq, Prod.mk.injEq] at h
                    rw [← h.2]
                    refine consumed_trans c1 (consumed_trans c2 ?_)
                    refine consumed_trans (consumed_skipWs_to _ (by decide) hx2) ?_
                    exact consumed_trans (consumed_skipWs r5) (ihO _ _ _ ho)
                · -- close brace
                  rename_i r5 hx2
                  simp only [Option.some.injEq, Prod.mk.injEq] at h
                  rw [← h.2]
                  exact consumed_trans c1 (consumed_trans c2
                    (consumed_skipWs_to _ (by decide) hx2))
                · exact absurd h (by simp)
            · exact absurd h (by simp)
        · exact absurd h (by simp)

theorem escId_terminal {a : List Char} (h : EscId a) :
    escGo a false false = a := by
  have h2 := h []
  simpa [escGo] using h2

theorem all_jsonWs_ne_quote {a : List Char} (h : a.all jsonWs = true) :
    ∀ c ∈ a, c ≠ '"' :=
  fun c hc => jsonWs_ne_quote (List.all_eq_true.mp h c hc)

theorem escId_of_parseL {cs : List Char} {j : Json}
    (h : jsonParseFullL cs = some j) : EscId cs := by
  unfold jsonParseFullL at h
  rcases hp : parseValue (2 * cs.length + 8) (skipWs cs) with _ | ⟨j', rest⟩ <;>
    rw [hp] at h
  · exact absurd h (by simp)
  · by_cases hw : rest.all jsonWs
    · obtain ⟨a, ha, hia⟩ := (parse_sound _).1 _ _ _ hp
      have hcs : cs = cs.takeWhile jsonWs ++ (a ++ rest) := by
        conv_lhs => rw [← List.takeWhile_append_dropWhile (p := jsonWs) (l := cs)]
        rw [show cs.dropWhile jsonWs = skipWs cs from rfl, ha]
      have hid : EscId (cs.takeWhile jsonWs ++ (a ++ rest)) :=
        escId_append
          (escId_noquote fun c hc => jsonWs_ne_quote (List.mem_takeWhile_imp hc))
          (escId_append hia (escId_noquote (all_jsonWs_ne_quote hw)))
      rw [hcs]
      exact hid
    · simp only [] at h
      rw [if_neg hw] at h
      exact absurd h (by simp)

theorem escape_id_of_parseL {cs : List Char} {j : Json}
    (h : jsonParseFullL cs = some j) : escGo cs false false = cs :=
  escId_terminal (escId_of_parseL h)

/-- Claim C8: for every syntactically valid JSON text (hence with no raw
newline or carriage-return characters inside its string literals, which
`JSON.parse` rejects), the escaper returns the text unchanged — it is the
identity, and therefore idempotent, on clean input. -/
theorem claim_c8 (s : String) (j : Json) (h : jsonParseFull s = some j) :
    escapeNewlinesInStrings s = s := by
  have h2 : escGo s.data false false = s.data := escape_id_of_parseL h
  unfold escapeNewlinesInStrings
  rw [h2]

/-- Witness for C8 on a concrete pretty-printed JSON object. -/
theorem claim_c8_witness :
    escapeNewlinesInStrings "\x7b\"a\": [1, 2],\n \"b\": \"x\\ny\"\x7d" =
      "\x7b\"a\": [1, 2],\n \"b\": \"x\\ny\"\x7d" :=
  claim_c8 _ (Json.obj [("a", .arr [.num 1 0, .num 2 0]), ("b", .str "x\ny")]) rfl

/-! ### Search, replace and trim lemmas for the fence / prose round trips -/

theorem isPrefixOf_append_self (pat r : List Char) :
    pat.isPrefixOf (pat ++ r) = true := by
  induction pat with
  | nil => simp [List.isPrefixOf]
  | cons c p ih => simp [List.isPrefixOf, ih]

theorem isPrefixOf_append_left {pat x : List Char} (y : List Char)
    (h : pat.isPrefixOf (x ++ y) = true) (hlen : pat.length ≤ x.length) :
    pat.isPrefixOf x = true := by
  induction pat generalizing x with
  | nil => simp [List.isPrefixOf]
  | cons c p ih =>
    cases x with
    | nil => simp at hlen
    | cons a x' =>
      simp only [List.cons_append, List.isPrefixOf, Bool.and_eq_true, decide_eq_true_eq] at h ⊢
      exact ⟨h.1, ih h.2 (by simpa using hlen)⟩

theorem splitFirst_cons (c : Char) (r pat : List Char) :
    splitFirst (c :: r) pat =
      if pat.isPrefixOf (c :: r) = true
      then some ([], (c :: r).drop pat.length)
      else
        match splitFirst r pat with
        | some (a, b) => some (c :: a, b)
        | none => none := by
  rw [splitFirst]

theorem splitFirst_of_isPrefixOf {cs pat : List Char}
    (h : pat.isPrefixOf cs = true) :
    splitFirst cs pat = some ([], cs.drop pat.length) := by
  cases cs with
  | nil =>
    cases pat with
    | nil => rfl
    | cons p ps => simp [List.isPrefixOf] at h
  | cons c r =>
    rw [splitFirst, h]
    simp

theorem splitFirst_none_of {cs pat : List Char}
    (h : ∀ v w, cs = v ++ w → pat.isPrefixOf w = false) :
    splitFirst cs pat = none := by
  induction cs with
  | nil =>
    rw [splitFirst, h [] [] rfl]
    simp
  | cons c r ih =>
    rw [splitFirst, h [] (c :: r) rfl]
    simp only [Bool.false_eq_true, if_false]
    rw [ih fun v w hw => h (c :: v) w (by rw [hw]; rfl)]

theorem splitFirst_none_suffix {cs pat : List Char}
    (h : splitFirst cs pat = none) :
    ∀ v w, cs = v ++ w → pat.isPrefixOf w = false := by
  induction cs with
  | nil =>
    intro v w hw
    obtain ⟨rfl, rfl⟩ := List.append_eq_nil.mp hw.symm
    rw [splitFirst] at h
    by_cases hp : pat.isPrefixOf ([] : List Char) = true
    · rw [hp] at h; simp at h
    · rw [Bool.not_eq_true] at hp
      exact hp
  | cons c r ih =>
    intro v w hw
    rw [splitFirst] at h
    by_cases hp : pat.isPrefixOf (c :: r) = true
    · rw [hp] at h; simp at h
    · rw [Bool.not_eq_true] at hp
      rw [hp] at h
      simp only [Bool.false_eq_true, if_false] at h
      have hrec : splitFirst r pat = none := by
        rcases hs : splitFirst r pat with _ | p
        · rfl
        · rw [hs] at h; simp at h
      cases v with
      | nil =>
        simp only [List.nil_append] at hw
        rw [← hw]
        exact hp
      | cons a v2 =>
        simp only [List.cons_append, List.cons.injEq] at hw
        exact ih hrec v2 w hw.2

theorem splitFirst_exact {pat : List Char} (u r : List Char)
    (h : ∀ v w, u = v ++ w → w ≠ [] → pat.isPrefixOf (w ++ pat ++ r) = false) :
    splitFirst (u ++ pat ++ r) pat = some (u, r) := by
  induction u with
  | nil =>
    rw [List.nil_append, splitFirst_of_isPrefixOf (isPrefixOf_append_self pat r),
      List.drop_left]
  | cons c u2 ih =>
    have hc : pat.isPrefixOf ((c :: u2) ++ pat ++ r) = false :=
      h [] (c :: u2) rfl (by simp)
    have hshape : (c :: u2) ++ pat ++ r = c :: (u2 ++ pat ++ r) := by simp
    rw [hshape] at hc ⊢
    rw [splitFirst_cons, hc]
    simp only [Bool.false_eq_true, if_false]
    rw [ih fun v w hw hne => h (c :: v) w (by rw [hw]; rfl) hne]

theorem replaceTriple_id {cs : List Char}
    (hno : ∀ v w, cs = v ++ w → tbt.isPrefixOf w = false) :
    replaceTriple cs = cs := by
  induction cs using replaceTriple.induct with
  | case1 r ih =>
    have h := hno [] _ rfl
    simp [tbt, List.isPrefixOf] at h
  | case2 c r hcond ih =>
    rw [replaceTriple.eq_2 c r hcond,
      ih fun v w hw => hno (c :: v) w (by rw [hw]; rfl)]
  | case3 => rfl

theorem idxOfChar_cons_self (c : Char) (r : List Char) :
    idxOfChar c (c :: r) = some 0 := by
  simp [idxOfChar]

theorem idxOfChar_append_not_mem {c : Char} {a : List Char}
    (h : ∀ x ∈ a, x ≠ c) (b : List Char) :
    idxOfChar c (a ++ b) = (idxOfChar c b).map (· + a.length) := by
  induction a with
  | nil => simp
  | cons x a2 ih =>
    have hx : ¬ x = c := h x (List.mem_cons_self _ _)
    have ih2 := ih fun y hy => h y (List.mem_cons_of_mem _ hy)
    cases hib : idxOfChar c b with
    | none => simp [List.cons_append, idxOfChar, hx, ih2, hib]
    | some i => simp [List.cons_append, idxOfChar, hx, ih2, hib, Nat.add_assoc]

theorem dropWhile_append_full (p : Char → Bool) (a b : List Char) :
    (a ++ b).dropWhile p =
      if (a.dropWhile p).isEmpty then b.dropWhile p else a.dropWhile p ++ b := by
  induction a with
  | nil => simp
  | cons c a2 ih =>
    by_cases hc : p c
    · simpa [List.dropWhile_cons, hc] using ih
    · simp [List.dropWhile_cons, hc]

theorem head_false_of_dropWhile_fixed {p : Char → Bool} {c : Char} {r : List Char}
    (h : (c :: r).dropWhile p = c :: r) : p c = false := by
  by_cases hc : p c
  · rw [List.dropWhile_cons, if_pos hc] at h
    have hlen := congrArg List.length h
    have hle := (List.dropWhile_suffix (l := r) p).length_le
    simp at hlen
    omega
  · simpa using hc

theorem jsTrimL_fixed {cs : List Char} (h : jsTrimL cs = cs) :
    cs.dropWhile jsWs = cs ∧ cs.reverse.dropWhile jsWs = cs.reverse := by
  unfold jsTrimL dropTrailingWs at h
  have hlen1 : (cs.dropWhile jsWs).length ≤ cs.length :=
    (List.dropWhile_suffix jsWs).length_le
  have hlen2 : ((cs.dropWhile jsWs).reverse.dropWhile jsWs).length ≤
      (cs.dropWhile jsWs).length := by
    have h2 := (List.dropWhile_suffix (l := (cs.dropWhile jsWs).reverse) jsWs).length_le
    simpa using h2
  have hlenEq := congrArg List.length h
  simp only [List.length_reverse] at hlenEq
  have hd : cs.dropWhile jsWs = cs := by
    refine (List.dropWhile_suffix jsWs).eq_of_length ?_
    omega
  refine ⟨hd, ?_⟩
  rw [hd] at h
  have h3 := congrArg List.reverse h
  simpa using h3

theorem tbt_prefix_iff (w : List Char) :
    tbt.isPrefixOf w = true ↔ ∃ w', w = '`' :: '`' :: '`' :: w' := by
  cases w with
  | nil => simp [tbt, List.isPrefixOf]
  | cons c1 t1 =>
    cases t1 with
    | nil => simp [tbt, List.isPrefixOf]
    | cons c2 t2 =>
      cases t2 with
      | nil => simp [tbt, List.isPrefixOf]
      | cons c3 t3 =>
        constructor
        · intro h
          simp only [tbt, List.isPrefixOf, Bool.and_eq_true, beq_iff_eq] at h
          obtain ⟨h1, h2, h3, _⟩ := h
          exact ⟨t3, by rw [← h1, ← h2, ← h3]⟩
        · rintro ⟨w', hw⟩
          obtain ⟨rfl, rfl, rfl, rfl⟩ :
              c1 = '`' ∧ c2 = '`' ∧ c3 = '`' ∧ t3 = w' := by
            simpa using hw
          simp [tbt, List.isPrefixOf]

theorem no_tbt_of_all_ne {z : List Char} (h : ∀ c ∈ z, c ≠ '`') :
    ∀ v w, z = v ++ w → tbt.isPrefixOf w = false := by
  intro v w hw
  cases hPB : tbt.isPrefixOf w
  · rfl
  · exfalso
    obtain ⟨w', rfl⟩ := (tbt_prefix_iff w).mp hPB
    exact h '`' (by rw [hw]; simp) rfl

theorem no_tbt_in_append {a b : List Char} (ha : ∀ c ∈ a, c ≠ '`')
    (hb : ∀ v w, b = v ++ w → tbt.isPrefixOf w = false) :
    ∀ v w, a ++ b = v ++ w → tbt.isPrefixOf w = false := by
  intro v w hw
  rcases List.append_eq_append_iff.mp hw with ⟨a', ha', hb'⟩ | ⟨c', hc', hd'⟩
  · exact hb a' w hb'
  · cases c' with
    | nil =>
      rw [List.nil_append] at hd'
      exact hd' ▸ hb [] b rfl
    | cons x cr =>
      cases hPB : tbt.isPrefixOf w
      · rfl
      · exfalso
        obtain ⟨w', hw'⟩ := (tbt_prefix_iff w).mp hPB
        rw [hd', List.cons_append] at hw'
        have hx : x = '`' := (List.cons.injEq _ _ _ _ ▸ hw').1
        exact ha x (by rw [hc']; simp) hx

theorem no_tbt_mid {sd p : List Char} (hp : ∀ c ∈ p, c ≠ '`')
    (hs : ∀ v w, sd = v ++ w → tbt.isPrefixOf w = false) :
    ∀ v w, sd ++ p = v ++ w → tbt.isPrefixOf w = false := by
  intro v w hw
  rcases List.append_eq_append_iff.mp hw with ⟨a', ha', hb'⟩ | ⟨c', hc', hd'⟩
  · exact no_tbt_of_all_ne hp a' w hb'
  · cases hPB : tbt.isPrefixOf w
    · rfl
    · exfalso
      obtain ⟨w', hw'⟩ := (tbt_prefix_iff w).mp hPB
      rw [hd'] at hw'
      match c', hw' with
      | [], hw' =>
        exact hp '`' (by rw [List.nil_append] at hw'; rw [hw']; simp) rfl
      | [x1], hw' =>
        have h2 := (by simpa using hw' : x1 = '`' ∧ p = '`' :: '`' :: w')
        exact hp '`' (by rw [h2.2]; simp) rfl
      | [x1, x2], hw' =>
        have : p = '`' :: w' := by
          have h2 := (by simpa using hw' : x1 = '`' ∧ x2 = '`' ∧ p = '`' :: w')
          exact h2.2.2
        exact hp '`' (by rw [this]; simp) rfl
      | x1 :: x2 :: x3 :: r3, hw' =>
        have h3 : x1 = '`' ∧ x2 = '`' ∧ x3 = '`' := by
          have := hw'
          simp only [List.cons_append, List.cons.injEq] at this
          exact ⟨this.1, this.2.1, this.2.2.1⟩
        have hpre : tbt.isPrefixOf (x1 :: x2 :: x3 :: r3) = true := by
          rw [h3.1, h3.2.1, h3.2.2]
          exact (tbt_prefix_iff _).mpr ⟨r3, rfl⟩
        rw [hs v _ hc'] at hpre
        exact Bool.noConfusion hpre

theorem no_tbt_snoc {sd : List Char} {z : Char} (hz : z ≠ '`')
    (hs : ∀ v w, sd = v ++ w → tbt.isPrefixOf w = false) :
    ∀ v w, sd ++ [z] = v ++ w → tbt.isPrefixOf w = false := by
  intro v w hw
  rcases List.append_eq_append_iff.mp hw with ⟨a', ha', hb'⟩ | ⟨c', hc', hd'⟩
  · cases a' with
    | nil =>
      rw [List.nil_append] at hb'
      cases hPB : tbt.isPrefixOf w
      · rfl
      · exfalso
        obtain ⟨w', hw'⟩ := (tbt_prefix_iff w).mp hPB
        rw [← hb'] at hw'
        simp at hw'
    | cons x xr =>
      have hwnil : w = [] := by
        have hlen := congrArg List.length hb'
        simp only [List.length_append, List.length_cons, List.length_nil] at hlen
        exact List.length_eq_zero.mp (by omega)
      rw [hwnil]
      simp [tbt, List.isPrefixOf]
  · cases hPB : tbt.isPrefixOf w
    · rfl
    · exfalso
      obtain ⟨w', hw'⟩ := (tbt_prefix_iff w).mp hPB
      rw [hd'] at hw'
      match c', hw' with
      | [], hw' => simp at hw'
      | [x1], hw' =>
        have : z = '`' := by
          have h2 := (by simpa using hw' : x1 = '`' ∧ z = '`' ∧ ([] : List Char) = '`' :: w')
          exact h2.2.1
        exact hz this
      | [x1, x2], hw' =>
        have : z = '`' := by
          have h2 := (by simpa using hw' :
            x1 = '`' ∧ x2 = '`' ∧ z = '`' ∧ ([] : List Char) = w')
          exact h2.2.2.1
        exact hz this
      | x1 :: x2 :: x3 :: r3, hw' =>
        have h3 : x1 = '`' ∧ x2 = '`' ∧ x3 = '`' := by
          have h4 := hw'
          simp only [List.cons_append, List.cons.injEq] at h4
          exact ⟨h4.1, h4.2.1, h4.2.2.1⟩
        have hpre : tbt.isPrefixOf (x1 :: x2 :: x3 :: r3) = true := by
          rw [h3.1, h3.2.1, h3.2.2]
          exact (tbt_prefix_iff _).mpr ⟨r3, rfl⟩
        rw [hs v _ hc'] at hpre
        exact Bool.noConfusion hpre

theorem no_tbt_before_close {sd : List Char} {z : Char} (hz : z ≠ '`')
    (hs : ∀ v w, sd = v ++ w → tbt.isPrefixOf w = false) (rest : List Char) :
    ∀ v w, sd ++ [z] = v ++ w → w ≠ [] →
      tbt.isPrefixOf ((w ++ tbt) ++ rest) = false := by
  intro v w hw hne
  cases hPB : tbt.isPrefixOf ((w ++ tbt) ++ rest)
  · rfl
  · exfalso
    obtain ⟨y, hy⟩ := (tbt_prefix_iff _).mp hPB
    match w, hne, hy with
    | [x1], _, hy =>
      have hx1 : x1 = '`' := by
        simpa [tbt] using congrArg List.head? hy
      have hlast := congrArg List.getLast? hw
      rw [List.getLast?_concat] at hlast
      subst hx1
      rw [List.getLast?_concat] at hlast
      exact hz (Option.some.injEq _ _ ▸ hlast)
    | [x1, x2], _, hy =>
      have hx2 : x2 = '`' := by
        have h4 := hy
        simp only [List.cons_append, List.append_assoc, List.cons.injEq] at h4
        exact h4.2.1
      have hw2 : sd ++ [z] = (v ++ [x1]) ++ [x2] := by rw [hw]; simp
      have hlast := congrArg List.getLast? hw2
      rw [List.getLast?_concat] at hlast
      subst hx2
      rw [List.getLast?_concat] at hlast
      exact hz (Option.some.injEq _ _ ▸ hlast)
    | x1 :: x2 :: x3 :: w3, _, hy =>
      have h3 : x1 = '`' ∧ x2 = '`' ∧ x3 = '`' := by
        have h4 := hy
        simp only [List.cons_append, List.cons.injEq] at h4
        exact ⟨h4.1, h4.2.1, h4.2.2.1⟩
      have hpre : tbt.isPrefixOf (x1 :: x2 :: x3 :: w3) = true := by
        rw [h3.1, h3.2.1, h3.2.2]
        exact (tbt_prefix_iff _).mpr ⟨w3, rfl⟩
      rw [no_tbt_snoc hz hs v _ hw] at hpre
      exact Bool.noConfusion hpre

/-- Claim C6 (amended): when the direct JSON parse of the sanitized text
fails, the Recovery Parser slices from the first '\x7b' to the last '\x7d'
inclusive and decodes that slice.  For any valid SuggestionSet JSON text `s`
(an object text: it starts with '\x7b', ends with '\x7d', and contains no
triple backtick) surrounded by extraneous prose `p1`/`p2` free of double
quotes, braces and backticks, if the direct parse of the sanitized
combined text fails then the slice is exactly `s` and the Recovery Parser
returns the embedded SuggestionSet value. -/
theorem claim_c6 (s : String) (j : Json) (mid p1 p2 : List Char)
    (hp : jsonParseFull s = some j)
    (hsd : s.data = '{' :: mid ++ ['}'])
    (hnt : splitFirst s.data tbt = none)
    (hp1 : ∀ c ∈ p1, c ≠ '"' ∧ c ≠ '{' ∧ c ≠ '}' ∧ c ≠ '`')
    (hp2 : ∀ c ∈ p2, c ≠ '"' ∧ c ≠ '{' ∧ c ≠ '}' ∧ c ≠ '`')
    (hdirect : jsonParseFullL (jsTrimL (sanitizedOf (p1 ++ s.data ++ p2))) = none) :
    ladderParse (p1 ++ s.data ++ p2) = .inl j ∧
      recoveryParse ⟨p1 ++ s.data ++ p2⟩ = j := by
  have hsfx := splitFirst_none_suffix hnt
  have hp1b : ∀ c ∈ p1, c ≠ '`' := fun c hc => (hp1 c hc).2.2.2
  have hp2b : ∀ c ∈ p2, c ≠ '`' := fun c hc => (hp2 c hc).2.2.2
  have hq : ∀ v w, p1 ++ s.data ++ p2 = v ++ w → tbt.isPrefixOf w = false := by
    intro v w hw
    rw [List.append_assoc] at hw
    exact no_tbt_in_append hp1b (no_tbt_mid hp2b hsfx) v w hw
  have hsf : splitFirst (p1 ++ s.data ++ p2) tbt = none := splitFirst_none_of hq
  have hEF : extractFence (p1 ++ s.data ++ p2) = none := by
    unfold extractFence
    rw [hsf]
  have hRT : replaceTriple (p1 ++ s.data ++ p2) = p1 ++ s.data ++ p2 :=
    replaceTriple_id hq
  have hinner1 : (s.data ++ p2).dropWhile jsWs = s.data ++ p2 := by
    rw [hsd]
    simp only [List.cons_append]
    rw [List.dropWhile_cons, show jsWs '{' = false from by decide]
    simp
  have hdropA : (p1 ++ s.data ++ p2).dropWhile jsWs
      = p1.dropWhile jsWs ++ (s.data ++ p2) := by
    rw [List.append_assoc, dropWhile_append_full]
    by_cases hE : (p1.dropWhile jsWs).isEmpty
    · rw [if_pos hE, hinner1, List.isEmpty_iff.mp hE, List.nil_append]
    · rw [if_neg hE]
  have hrev : (p1.dropWhile jsWs ++ (s.data ++ p2)).reverse
      = p2.reverse ++ (s.data.reverse ++ (p1.dropWhile jsWs).reverse) := by
    simp [List.reverse_append]
  have hsrev : s.data.reverse = '}' :: (mid.reverse ++ ['{']) := by
    rw [hsd]; simp
  have hinner2 : (s.data.reverse ++ (p1.dropWhile jsWs).reverse).dropWhile jsWs
      = s.data.reverse ++ (p1.dropWhile jsWs).reverse := by
    rw [hsrev]
    simp only [List.cons_append]
    rw [List.dropWhile_cons, show jsWs '}' = false from by decide]
    simp
  have hdropB : (p2.reverse ++ (s.data.reverse ++ (p1.dropWhile jsWs).reverse)).dropWhile jsWs
      = p2.reverse.dropWhile jsWs ++ (s.data.reverse ++ (p1.dropWhile jsWs).reverse) := by
    rw [dropWhile_append_full]
    by_cases hE : (p2.reverse.dropWhile jsWs).isEmpty
    · rw [if_pos hE, hinner2, List.isEmpty_iff.mp hE, List.nil_append]
    · rw [if_neg hE]
  have hTrim : jsTrimL (p1 ++ s.data ++ p2)
      = p1.dropWhile jsWs ++ (s.data ++ (p2.reverse.dropWhile jsWs).reverse) := by
    unfold jsTrimL dropTrailingWs
    rw [hdropA, hrev, hdropB]
    simp [List.reverse_append]
  have hEsc : escGo (p1.dropWhile jsWs ++ (s.data ++ (p2.reverse.dropWhile jsWs).reverse)) false false
      = p1.dropWhile jsWs ++ (s.data ++ (p2.reverse.dropWhile jsWs).reverse) := by
    apply escId_terminal
    apply escId_append
    · exact escId_noquote fun c hc => (hp1 c ((List.dropWhile_suffix jsWs).subset hc)).1
    · apply escId_append
      · exact escId_of_parseL hp
      · exact escId_noquote fun c hc =>
          (hp2 c (List.mem_reverse.mp
            ((List.dropWhile_suffix jsWs).subset (List.mem_reverse.mp hc)))).1
  have hsan : sanitizedOf (p1 ++ s.data ++ p2)
      = p1.dropWhile jsWs ++ (s.data ++ (p2.reverse.dropWhile jsWs).reverse) := by
    show escGo (jsTrimL (replaceTriple
      ((extractFence (p1 ++ s.data ++ p2)).getD (p1 ++ s.data ++ p2)))) false false = _
    rw [hEF, Option.getD_none, hRT, hTrim, hEsc]
  have hmem1 : ∀ x ∈ p1.dropWhile jsWs, x ≠ '{' :=
    fun x hx => (hp1 x ((List.dropWhile_suffix jsWs).subset hx)).2.1
  have hmem2R : ∀ x ∈ p2.reverse.dropWhile jsWs, x ≠ '}' :=
    fun x hx => (hp2 x (List.mem_reverse.mp
      ((List.dropWhile_suffix jsWs).subset hx))).2.2.1
  have hidx1 : idxOfChar '{'
      (p1.dropWhile jsWs ++ (s.data ++ (p2.reverse.dropWhile jsWs).reverse))
      = some (p1.dropWhile jsWs).length := by
    rw [idxOfChar_append_not_mem hmem1, hsd]
    simp only [List.cons_append]
    rw [idxOfChar_cons_self]
    simp
  have hsd'rev : (p1.dropWhile jsWs ++ (s.data ++ (p2.reverse.dropWhile jsWs).reverse)).reverse
      = p2.reverse.dropWhile jsWs ++ (s.data.reverse ++ (p1.dropWhile jsWs).reverse) := by
    simp [List.reverse_append]
  have hidx2a : idxOfChar '}'
      (p2.reverse.dropWhile jsWs ++ (s.data.reverse ++ (p1.dropWhile jsWs).reverse))
      = some (p2.reverse.dropWhile jsWs).length := by
    rw [idxOfChar_append_not_mem hmem2R, hsrev]
    simp only [List.cons_append]
    rw [idxOfChar_cons_self]
    simp
  have hslen : s.data.length = mid.length + 2 := by
    rw [hsd]
    simp only [List.cons_append, List.length_cons, List.length_append,
      List.length_nil]
  have hidx2 : (idxOfChar '}'
        (p1.dropWhile jsWs ++ (s.data ++ (p2.reverse.dropWhile jsWs).reverse)).reverse).map
      (fun i => (p1.dropWhile jsWs ++ (s.data ++ (p2.reverse.dropWhile jsWs).reverse)).length - 1 - i)
      = some ((p1.dropWhile jsWs).length + s.data.length - 1) := by
    rw [hsd'rev, hidx2a, Option.map_some']
    congr 1
    simp only [List.length_append, List.length_reverse]
    omega
  have hslice : (((p1.dropWhile jsWs ++ (s.data ++ (p2.reverse.dropWhile jsWs).reverse)).drop
        (p1.dropWhile jsWs).length).take
      ((p1.dropWhile jsWs).length + s.data.length - 1 + 1 - (p1.dropWhile jsWs).length))
      = s.data := by
    rw [List.drop_left,
      show (p1.dropWhile jsWs).length + s.data.length - 1 + 1 - (p1.dropWhile jsWs).length
        = s.data.length from by omega,
      List.take_left]
  have hP2 : jsonParseFullL
      (((p1.dropWhile jsWs ++ (s.data ++ (p2.reverse.dropWhile jsWs).reverse)).drop
          (p1.dropWhile jsWs).length).take
        ((p1.dropWhile jsWs).length + s.data.length - 1 + 1 - (p1.dropWhile jsWs).length))
      = some j := by
    rw [hslice]; exact hp
  rw [hsan] at hdirect
  have hLP : ladderParse (p1 ++ s.data ++ p2) = Sum.inl j := by
    unfold ladderParse
    rw [hsan, hdirect]
    simp only []
    rw [hidx1, hidx2]
    simp only []
    rw [hP2]
  refine ⟨hLP, ?_⟩
  unfold recoveryParse
  rw [hLP]

/-- Witness for the amended C6: a small SuggestionSet object wrapped in
chatty prose is recovered exactly by the slicing rung. -/
theorem claim_c6_witness :
    recoveryParse ⟨"Here is the JSON:\n".data ++ "\x7b\"suggestions\": []\x7d".data ++ "\nHope this helps.".data⟩
      = Json.obj [("suggestions", Json.arr [])] :=
  (claim_c6 "\x7b\"suggestions\": []\x7d" (Json.obj [("suggestions", Json.arr [])])
    "\"suggestions\": []".data "Here is the JSON:\n".data "\nHope this helps.".data
    rfl rfl rfl (by decide) (by decide) rfl).2

/-- Claim C7 (amended): the Recovery Parser extracts only the content of
the first triple-backtick fenced block.  For any valid, trimmed
SuggestionSet JSON text `s` containing no triple-backtick sequence,
wrapped as a `json`-tagged fence with arbitrary material after the closing
fence, the fence content is recovered, sanitised to `s` itself, and the
direct parse rung returns a value deep-equal to the original
SuggestionSet. -/
theorem claim_c7 (s : String) (j : Json) (rest : List Char)
    (hp : jsonParseFull s = some j)
    (htrim : jsTrimL s.data = s.data)
    (hnt : splitFirst s.data tbt = none) :
    ladderParse ("```json\n".data ++ s.data ++ "\n```".data ++ rest) = .inl j ∧
      recoveryParse ⟨"```json\n".data ++ s.data ++ "\n```".data ++ rest⟩ = j := by
  have hsfx := splitFirst_none_suffix hnt
  have hne : s.data ≠ [] := by
    intro hd
    have h0 : jsonParseFull s = none := by
      unfold jsonParseFull
      rw [hd]
      rfl
    rw [h0] at hp
    exact Option.noConfusion hp
  have hNE : ¬ ((s.data.dropWhile jsWs).isEmpty = true) := by
    rw [(jsTrimL_fixed htrim).1]
    cases hd : s.data with
    | nil => exact absurd hd hne
    | cons c r => simp
  have hA : "```json\n".data = tbt ++ ('j' :: 's' :: 'o' :: 'n' :: ['\n']) := rfl
  have hB : "\n```".data = '\n' :: tbt := rfl
  have hWQ : "```json\n".data ++ s.data ++ "\n```".data ++ rest
      = tbt ++ ('j' :: 's' :: 'o' :: 'n' :: '\n' :: (s.data ++ ('\n' :: (tbt ++ rest)))) := by
    rw [hA, hB]
    simp
  have hsf1 : splitFirst ("```json\n".data ++ s.data ++ "\n```".data ++ rest) tbt
      = some ([], 'j' :: 's' :: 'o' :: 'n' :: '\n' :: (s.data ++ ('\n' :: (tbt ++ rest)))) := by
    rw [hWQ, splitFirst_of_isPrefixOf (isPrefixOf_append_self tbt _), List.drop_left]
  have hstrip : stripJsonTag
      ('j' :: 's' :: 'o' :: 'n' :: '\n' :: (s.data ++ ('\n' :: (tbt ++ rest))))
      = '\n' :: (s.data ++ ('\n' :: (tbt ++ rest))) := by
    unfold stripJsonTag
    simp only []
    rw [if_pos]
    exact ⟨by decide, by decide, by decide, by decide⟩
  have hdropQ : ('\n' :: (s.data ++ ('\n' :: (tbt ++ rest)))).dropWhile jsWs
      = s.data ++ ('\n' :: (tbt ++ rest)) := by
    have hstep : ('\n' :: (s.data ++ ('\n' :: (tbt ++ rest)))).dropWhile jsWs
        = (s.data ++ ('\n' :: (tbt ++ rest))).dropWhile jsWs := rfl
    rw [hstep, dropWhile_append_full, if_neg hNE, (jsTrimL_fixed htrim).1]
  have hshape : s.data ++ ('\n' :: (tbt ++ rest)) = ((s.data ++ ['\n']) ++ tbt) ++ rest := by
    simp
  have hcond : ∀ v w, s.data ++ ['\n'] = v ++ w → w ≠ [] →
      tbt.isPrefixOf (w ++ tbt ++ rest) = false :=
    no_tbt_before_close (by decide) hsfx rest
  have hEF : extractFence ("```json\n".data ++ s.data ++ "\n```".data ++ rest)
      = some (s.data ++ ['\n']) := by
    unfold extractFence
    rw [hsf1]
    simp only []
    rw [hstrip, hdropQ, hshape, splitFirst_exact _ _ hcond]
  have hRT : replaceTriple (s.data ++ ['\n']) = s.data ++ ['\n'] :=
    replaceTriple_id (no_tbt_snoc (by decide) hsfx)
  have hTr : jsTrimL (s.data ++ ['\n']) = s.data := by
    unfold jsTrimL dropTrailingWs
    rw [dropWhile_append_full, if_neg hNE, (jsTrimL_fixed htrim).1]
    rw [show (s.data ++ ['\n']).reverse = '\n' :: s.data.reverse from by simp]
    rw [show ('\n' :: s.data.reverse).dropWhile jsWs = s.data.reverse.dropWhile jsWs from rfl]
    rw [(jsTrimL_fixed htrim).2]
    simp
  have hsan : sanitizedOf ("```json\n".data ++ s.data ++ "\n```".data ++ rest) = s.data := by
    show escGo (jsTrimL (replaceTriple
      ((extractFence ("```json\n".data ++ s.data ++ "\n```".data ++ rest)).getD
        ("```json\n".data ++ s.data ++ "\n```".data ++ rest)))) false false = s.data
    rw [hEF, Option.getD_some, hRT, hTr]
    exact escape_id_of_parseL hp
  have hfirst : jsonParseFullL
      (jsTrimL (sanitizedOf ("```json\n".data ++ s.data ++ "\n```".data ++ rest)))
      = some j := by
    rw [hsan, htrim]
    exact hp
  have hLP : ladderParse ("```json\n".data ++ s.data ++ "\n```".data ++ rest) = Sum.inl j := by
    unfold ladderParse
    rw [hfirst]
  refine ⟨hLP, ?_⟩
  unfold recoveryParse
  rw [hLP]

/-- Witness for the amended C7: a fenced, tagged SuggestionSet with
trailing commentary after the closing fence round-trips exactly. -/
theorem claim_c7_witness :
    recoveryParse ⟨"```json\n".data ++ "\x7b\"suggestions\": []\x7d".data ++ "\n```".data ++ " done".data⟩
      = Json.obj [("suggestions", Json.arr [])] :=
  (claim_c7 "\x7b\"suggestions\": []\x7d" (Json.obj [("suggestions", Json.arr [])])
    " done".data rfl rfl rfl).2

end DocsBot
